import Mathlib

/-!
Verification of the figma-backend server core against its specification.

Part 1: the in-memory project session manager of `src/backend/server.js`
(`createProject`, `addPageToProject`, `updateDesignSystem`,
`extractInteractiveElements`, `inferActionFromText`, `getNextPageType`,
`analyzeDescriptionForPages`, and the `/api/generate-next-page` route body).

Part 2: the JSON repair pipeline (`repairJSON` of `src/backend/server.js`
and `parseJSONResponse` of the companion server file).

JavaScript strings are modelled as Lean `String`/`List Char`; objects with
optional fields as structures with `Option` fields, where a JS falsy check
(`!x`, `x || y`) on a string field is modelled by `Option` emptiness plus the
empty-string test.
-/

namespace FigmaBackend

/-- JS `a || b` on an (optional) string `a` and default string `b`:
`a` is used when present and non-empty (truthy), otherwise `b`. -/
def strOr (a : Option String) (b : String) : String :=
  match a with
  | some s => if s = "" then b else s
  | none => b

/-- Lowercase every character, modelling JS `String.prototype.toLowerCase`
on the ASCII texts the server handles. -/
def lowerChars (s : String) : List Char :=
  s.toList.map Char.toLower

/-- Whether `needle` occurs at the start of `hay` (character lists). -/
def isPrefixList : List Char → List Char → Bool
  | [], _ => true
  | _ :: _, [] => false
  | a :: as, b :: bs => a = b && isPrefixList as bs

/-- Whether `needle` occurs contiguously anywhere in `hay`,
modelling JS `String.prototype.includes`. -/
def containsSeq (needle : List Char) : List Char → Bool
  | [] => needle.isEmpty
  | b :: bs => isPrefixList needle (b :: bs) || containsSeq needle bs

/-- `hay.includes needle` for a lowered haystack and a literal needle. -/
def jsIncludes (hay : List Char) (needle : String) : Bool :=
  containsSeq needle.toList hay

/-- A child element of a frame (`server.js` page JSON shape): only the
fields the session manager reads. -/
structure Child where
  type : String
  text : Option String := none
  placeholder : Option String := none
  backgroundColor : Option String := none
  x : Option Int := none
  y : Option Int := none

/-- A frame of a page document: only the fields the session manager reads. -/
structure Frame where
  name : String := ""
  backgroundColor : Option String := none
  children : Option (List Child) := none

/-- A parsed page document as consumed by the session manager:
an object that may or may not carry a `frames` array. -/
structure PageJson where
  frames : Option (List Frame) := none

/-- An interactive element record built by `extractInteractiveElements`. -/
structure InteractiveElement where
  id : String
  type : String
  text : String
  action : String
  x : Option Int
  y : Option Int
  sourcePage : String

/-- The page record stored by `addPageToProject`: the fields the session
manager itself reads (`pageData.type`, `pageData.json`). -/
structure PageData where
  type : String
  json : PageJson

/-- `project.designSystem.colors` (background / primary, unset initially). -/
structure DsColors where
  background : Option String := none
  primary : Option String := none

/-- `project.designSystem` (only `colors` is ever written by the core). -/
structure DesignSystem where
  colors : DsColors := {}

/-- One project session (`createProject`'s object), without the ambient
registry id and timestamps, which no claim concerns. -/
structure Project where
  name : String
  description : String
  status : String
  pages : List PageData
  pendingPages : List String
  completedPages : List String
  currentPageIndex : Nat
  totalPages : Nat
  designSystem : DesignSystem
  interactiveElements : List InteractiveElement

/-- `createProject(projectName, description, requestedPages)` of server.js. -/
def createProject (projectName description : String)
    (requestedPages : List String) : Project :=
  { name := projectName
    description := description
    status := "active"
    pages := []
    pendingPages := requestedPages
    completedPages := []
    currentPageIndex := 0
    totalPages := requestedPages.length
    designSystem := {}
    interactiveElements := [] }

/-- `inferActionFromText(text)` of server.js: first matching keyword rule. -/
def inferActionFromText (text : String) : String :=
  let lowerText := lowerChars text
  if jsIncludes lowerText "login" || jsIncludes lowerText "sign in" then "login"
  else if jsIncludes lowerText "sign up" || jsIncludes lowerText "register" then "register"
  else if jsIncludes lowerText "contact" || jsIncludes lowerText "reach" then "contact"
  else if jsIncludes lowerText "learn" || jsIncludes lowerText "more" then "detail"
  else if jsIncludes lowerText "start" || jsIncludes lowerText "begin" then "get_started"
  else if jsIncludes lowerText "feature" then "features"
  else if jsIncludes lowerText "about" then "about"
  else "detail"

/-- `extractInteractiveElements(pageJson)` of server.js: buttons and inputs
among the immediate children of the first frame. -/
def extractInteractiveElements (pageJson : PageJson) : List InteractiveElement :=
  match pageJson.frames with
  | none => []
  | some [] => []
  | some (frame :: _) =>
    match frame.children with
    | none => []
    | some children =>
      children.enum.filterMap fun ic =>
        if ic.2.type = "button" || ic.2.type = "input" then
          some { id := frame.name ++ "_element_" ++ toString ic.1
                 type := ic.2.type
                 text := strOr ic.2.text (strOr ic.2.placeholder "Unnamed")
                 action := inferActionFromText (strOr ic.2.text (strOr ic.2.placeholder ""))
                 x := ic.2.x
                 y := ic.2.y
                 sourcePage := frame.name }
        else none

/-- The effect of `updateDesignSystem(project, pageJson)` of server.js on
`project.designSystem` (the only part of the project it writes): the first
frame's background color and the first button's background color are written
into the summary whenever they are present (truthy). -/
def updateDesignSystemColors (ds : DesignSystem) (pageJson : PageJson) : DesignSystem :=
  match pageJson.frames with
  | some (frame :: _) =>
    let ds1 :=
      match frame.backgroundColor with
      | some c =>
        if c = "" then ds
        else { ds with colors := { ds.colors with background := some c } }
      | none => ds
    (match frame.children with
     | some children =>
       match children.find? (fun c => c.type = "button") with
       | some button =>
         match button.backgroundColor with
         | some c =>
           if c = "" then ds1
           else { ds1 with colors := { ds1.colors with primary := some c } }
         | none => ds1
       | none => ds1
     | none => ds1)
  | _ => ds

/-- `updateDesignSystem(project, pageJson)` of server.js. -/
def updateDesignSystem (project : Project) (pageJson : PageJson) : Project :=
  { project with
    designSystem := updateDesignSystemColors project.designSystem pageJson }

/-- `indexOf` + `splice(i, 1)` on the pending queue: remove the first
occurrence of `t`, keep everything else in order. -/
def removeFirst (t : String) : List String → List String
  | [] => []
  | x :: xs => if x = t then xs else x :: removeFirst t xs

/-- `addPageToProject(projectId, pageData)` of server.js, at the level of one
existing project (the registry lookup is ambient). -/
def addPageToProject (project : Project) (pageData : PageData) : Project :=
  let project1 := { project with
    pages := project.pages ++ [pageData]
    completedPages := project.completedPages ++ [pageData.type]
    currentPageIndex := project.currentPageIndex + 1
    pendingPages := removeFirst pageData.type project.pendingPages }
  let interactive := extractInteractiveElements pageData.json
  let project2 := { project1 with
    interactiveElements := project1.interactiveElements ++ interactive }
  updateDesignSystem project2 pageData.json

/-- `getNextPageType(project)` of server.js. The comparison
`interactiveElements.length > pages.length - 2` is JS number arithmetic,
modelled over `Int`. -/
def getNextPageType (project : Project) : Option String :=
  match project.pendingPages with
  | t :: _ => some t
  | [] =>
    if (project.interactiveElements.length : Int) > (project.pages.length : Int) - 2 then
      some "detail"
    else
      none

/-- `analyzeDescriptionForPages(description)` of server.js: the default page
sequence when the caller requests no explicit page list. -/
def analyzeDescriptionForPages (description : String) : List String :=
  let lowerDesc := lowerChars description
  let pages := ["login", "home"]
  let pages := pages ++
    (if jsIncludes lowerDesc "feature" || jsIncludes lowerDesc "service" then
      ["features"] else [])
  let pages := pages ++
    (if jsIncludes lowerDesc "about" || jsIncludes lowerDesc "company" ||
        jsIncludes lowerDesc "team" then ["about"] else [])
  let pages := pages ++
    (if jsIncludes lowerDesc "contact" || jsIncludes lowerDesc "reach" ||
        jsIncludes lowerDesc "support" then ["contact"] else [])
  let pages := pages ++ ["detail", "detail"]
  let pages := pages ++
    (if jsIncludes lowerDesc "product" || jsIncludes lowerDesc "shop" ||
        jsIncludes lowerDesc "store" then ["detail"] else [])
  pages

/-- The mutation performed by one `/api/generate-next-page` request on its
project (server.js route body, lines 1183-1304): when `getNextPageType`
yields the terminal signal the status is set to `completed` and nothing else
changes; otherwise the (externally produced) design document is recorded via
`addPageToProject` under the computed page type. -/
def generateNextPageStep (project : Project) (designJson : PageJson) : Project :=
  match getNextPageType project with
  | none => { project with status := "completed" }
  | some t => addPageToProject project { type := t, json := designJson }

/-- Project states reachable through the server's own mutation surface:
creation followed by any number of `/api/generate-next-page` steps. -/
inductive ReachableProject : Project → Prop
  | init (projectName description : String) (requestedPages : List String) :
      ReachableProject (createProject projectName description requestedPages)
  | step (p : Project) (d : PageJson) :
      ReachableProject p → ReachableProject (generateNextPageStep p d)

/-! ### Part 2: JSON values, `JSON.parse`, and the repair pipelines -/

/-- A parsed JSON value, the result shape of `JSON.parse`. Numbers are
modelled exactly, as rationals. Object fields keep their parse order;
property access takes the last binding of a key, as `JSON.parse` does for
duplicate keys. -/
inductive Json where
  | null
  | bool (b : Bool)
  | num (q : Rat)
  | str (s : String)
  | arr (elems : List Json)
  | obj (fields : List (String × Json))

/-- The whitespace characters `JSON.parse` accepts between tokens. -/
def isJsonWs (c : Char) : Bool :=
  c = ' ' || c = '\t' || c = '\n' || c = '\r'

/-- Skip JSON token whitespace. -/
def skipWs (cs : List Char) : List Char :=
  cs.dropWhile isJsonWs

/-- Value of one hexadecimal digit. -/
def hexVal (c : Char) : Option Nat :=
  if '0' ≤ c ∧ c ≤ '9' then some (c.toNat - '0'.toNat)
  else if 'a' ≤ c ∧ c ≤ 'f' then some (c.toNat - 'a'.toNat + 10)
  else if 'A' ≤ c ∧ c ≤ 'F' then some (c.toNat - 'A'.toNat + 10)
  else none

/-- The single-character escapes of JSON string literals. -/
def escChar : Char → Option Char
  | '"' => some '"'
  | '\\' => some '\\'
  | '/' => some '/'
  | 'b' => some (Char.ofNat 8)
  | 'f' => some (Char.ofNat 12)
  | 'n' => some '\n'
  | 'r' => some '\r'
  | 't' => some '\t'
  | _ => none

/-- Parse the body of a JSON string literal, after the opening quote:
the decoded characters plus the remainder after the closing quote.
Unescaped control characters are rejected, as in `JSON.parse`. -/
def parseStringBody : List Char → Option (List Char × List Char)
  | [] => none
  | c :: rest =>
    if c = '"' then some ([], rest)
    else if c = '\\' then
      match rest with
      | 'u' :: a :: b :: c2 :: d :: rest2 =>
        (match hexVal a, hexVal b, hexVal c2, hexVal d with
         | some x, some y, some z, some w =>
           (parseStringBody rest2).map fun sr =>
             (Char.ofNat (((x * 16 + y) * 16 + z) * 16 + w) :: sr.1, sr.2)
         | _, _, _, _ => none)
      | e :: rest2 =>
        (match escChar e with
         | some c2 => (parseStringBody rest2).map fun sr => (c2 :: sr.1, sr.2)
         | none => none)
      | [] => none
    else if c.toNat < 32 then none
    else (parseStringBody rest).map fun sr => (c :: sr.1, sr.2)

/-- Numeric value of a digit string. -/
def digitsToNat (ds : List Char) : Nat :=
  ds.foldl (fun n c => n * 10 + (c.toNat - '0'.toNat)) 0

/-- `m * 10 ^ e` as a rational, for an integer exponent. -/
def ratOfScaled (m : Int) (e : Int) : Rat :=
  if 0 ≤ e then (m : Rat) * (10 : Rat) ^ e.toNat
  else (m : Rat) / (10 : Rat) ^ (-e).toNat

/-- Parse a JSON number literal `-?(0|[1-9][0-9]*)(\.[0-9]+)?([eE][+-]?[0-9]+)?`. -/
def parseNumber (cs : List Char) : Option (Rat × List Char) :=
  let sgn := match cs with
    | '-' :: r => (true, r)
    | r => (false, r)
  let ids := sgn.2.takeWhile Char.isDigit
  let cs2 := sgn.2.dropWhile Char.isDigit
  match ids with
  | [] => none
  | i0 :: irest =>
    if i0 = '0' ∧ irest ≠ [] then none
    else
      let fracStep : Option (List Char × List Char) :=
        match cs2 with
        | '.' :: r =>
          (match r.takeWhile Char.isDigit with
           | [] => none
           | fds => some (fds, r.dropWhile Char.isDigit))
        | r => some ([], r)
      match fracStep with
      | none => none
      | some (fds, cs3) =>
        let expStep : Option (Int × List Char) :=
          match cs3 with
          | e :: r =>
            if e = 'e' ∨ e = 'E' then
              let es : (Int × List Char) := match r with
                | '+' :: rr => (1, rr)
                | '-' :: rr => (-1, rr)
                | rr => (1, rr)
              (match es.2.takeWhile Char.isDigit with
               | [] => none
               | eds => some (es.1 * (digitsToNat eds : Int), es.2.dropWhile Char.isDigit))
            else some (0, e :: r)
          | [] => some (0, [])
        match expStep with
        | none => none
        | some (ex, cs4) =>
          let mantissa : Int := (digitsToNat ids * 10 ^ fds.length + digitsToNat fds : Nat)
          let signed : Int := if sgn.1 then -mantissa else mantissa
          some (ratOfScaled signed (ex - (fds.length : Int)), cs4)

mutual

/-- Fueled recursive-descent parser for one JSON value (the grammar of
`JSON.parse`): returns the value and the unconsumed remainder. -/
def parseValue : Nat → List Char → Option (Json × List Char)
  | 0, _ => none
  | Nat.succ f, cs =>
    match skipWs cs with
    | 'n' :: 'u' :: 'l' :: 'l' :: rest => some (.null, rest)
    | 't' :: 'r' :: 'u' :: 'e' :: rest => some (.bool true, rest)
    | 'f' :: 'a' :: 'l' :: 's' :: 'e' :: rest => some (.bool false, rest)
    | '"' :: rest => (parseStringBody rest).map fun sr => (.str (String.mk sr.1), sr.2)
    | '[' :: rest =>
      (match skipWs rest with
       | ']' :: rest2 => some (.arr [], rest2)
       | rest2 => (parseElems f rest2).map fun er => (.arr er.1, er.2))
    | '{' :: rest =>
      (match skipWs rest with
       | '}' :: rest2 => some (.obj [], rest2)
       | rest2 => (parseFields f rest2).map fun fr => (.obj fr.1, fr.2))
    | cs2 => (parseNumber cs2).map fun nr => (.num nr.1, nr.2)

/-- Remaining elements of a non-empty JSON array (after `[` or `,`). -/
def parseElems : Nat → List Char → Option (List Json × List Char)
  | 0, _ => none
  | Nat.succ f, cs =>
    match parseValue f cs with
    | none => none
    | some (v, rest) =>
      match skipWs rest with
      | ',' :: rest2 => (parseElems f rest2).map fun er => (v :: er.1, er.2)
      | ']' :: rest2 => some ([v], rest2)
      | _ => none

/-- Remaining fields of a non-empty JSON object (after `{` or `,`). -/
def parseFields : Nat → List Char → Option (List (String × Json) × List Char)
  | 0, _ => none
  | Nat.succ f, cs =>
    match skipWs cs with
    | '"' :: rest =>
      (match parseStringBody rest with
       | none => none
       | some (key, rest2) =>
         match skipWs rest2 with
         | ':' :: rest3 =>
           (match parseValue f rest3 with
            | none => none
            | some (v, rest4) =>
              match skipWs rest4 with
              | ',' :: rest5 =>
                (parseFields f rest5).map fun fr => ((String.mk key, v) :: fr.1, fr.2)
              | '}' :: rest5 => some ([(String.mk key, v)], rest5)
              | _ => none)
         | _ => none)
    | _ => none

end

/-- `JSON.parse(s)`: `some` parsed value, or `none` when it would throw.
The fuel `2 * length + 4` always suffices: every two nested parser calls
consume at least one input character first. -/
def jsonParse (s : String) : Option Json :=
  match parseValue (2 * s.length + 4) s.toList with
  | some (v, rest) => if skipWs rest = [] then some v else none
  | none => none

/-- JS truthiness of a parsed JSON value (`if (result)` on it). -/
def jsTruthy : Json → Bool
  | .null => false
  | .bool b => b
  | .num q => decide (q ≠ 0)
  | .str s => decide (s ≠ "")
  | .arr _ => true
  | .obj _ => true

/-- JS property access `j[key]`: the last binding of the key on an object,
`undefined` (here `none`) otherwise. -/
def getField (j : Json) (key : String) : Option Json :=
  match j with
  | .obj fields => ((fields.filter fun kv => kv.1 = key).getLast?).map fun kv => kv.2
  | _ => none

/-- The guard `result && result.frames` used on every parse attempt of
`parseJSONResponse`. -/
def hasTruthyFrames (j : Json) : Bool :=
  jsTruthy j &&
    (match getField j "frames" with
     | some v => jsTruthy v
     | none => false)

/-- The step-6 guard `result && result.frames && Array.isArray(result.frames)`. -/
def hasFramesArray (j : Json) : Bool :=
  jsTruthy j &&
    (match getField j "frames" with
     | some (.arr _) => true
     | _ => false)

/-- The whitespace class `\s` of the repair regexes (ASCII part). -/
def isRegexWs (c : Char) : Bool :=
  c = ' ' || c = '\t' || c = '\n' || c = '\r' || c = Char.ofNat 11 || c = Char.ofNat 12

/-- The characters of the json-tagged fence marker. -/
def fenceJsonChars : List Char := "```json".toList

/-- The characters of the plain fence marker. -/
def fenceTickChars : List Char := "```".toList

/-- `str.replace(/```json\n?/g, '')`: drop every occurrence of a json-tagged
fence marker and an optional following newline. -/
def stripFencesJsonF : Nat → List Char → List Char
  | 0, cs => cs
  | _, [] => []
  | Nat.succ f, c :: rest =>
    if isPrefixList fenceJsonChars (c :: rest) then
      match (c :: rest).drop 7 with
      | '\n' :: r => stripFencesJsonF f r
      | r => stripFencesJsonF f r
    else c :: stripFencesJsonF f rest

/-- `str.replace(/```\n?/g, '')`: drop every remaining fence marker. -/
def stripFencesTickF : Nat → List Char → List Char
  | 0, cs => cs
  | _, [] => []
  | Nat.succ f, c :: rest =>
    if isPrefixList fenceTickChars (c :: rest) then
      match (c :: rest).drop 3 with
      | '\n' :: r => stripFencesTickF f r
      | r => stripFencesTickF f r
    else c :: stripFencesTickF f rest

/-- Both fence-marker replacements in order, as applied by every pipeline. -/
def stripFences (cs : List Char) : List Char :=
  let cs1 := stripFencesJsonF cs.length cs
  stripFencesTickF cs1.length cs1

/-- JS `String.prototype.trim` on both ends. -/
def jsTrim (cs : List Char) : List Char :=
  ((cs.dropWhile isRegexWs).reverse.dropWhile isRegexWs).reverse

/-- `str.replace(/,(\s*[}\]])/g, '$1')`: drop a comma standing (up to
whitespace) before a closing brace or bracket; fueled left-to-right scan,
continuing after each match as the regex engine does. -/
def fixTrailingCommasF : Nat → List Char → List Char
  | 0, cs => cs
  | _, [] => []
  | Nat.succ f, c0 :: rest =>
    if c0 = ',' then
      match rest.dropWhile isRegexWs with
      | c :: r =>
        if c = '}' ∨ c = ']' then rest.takeWhile isRegexWs ++ c :: fixTrailingCommasF f r
        else ',' :: fixTrailingCommasF f rest
      | [] => ',' :: fixTrailingCommasF f rest
    else c0 :: fixTrailingCommasF f rest

/-- An identifier character of the key-quoting regexes (`[a-zA-Z0-9_]`). -/
def isIdentChar (c : Char) : Bool :=
  c.isAlpha || c.isDigit || c = '_'

/-- `str.replace(/([{,]\s*)(ident)\s*:/g, '$1"$2":')`, quoting a bare object
key after `{` or `,`. With `digitStart` the identifier may begin with a digit
(`[a-zA-Z0-9_]+`, the server.js variant); without it the first character must
be a letter or underscore (`[a-zA-Z_][a-zA-Z0-9_]*`, the companion-file
variant). The whitespace between key and colon is not captured, hence
dropped, exactly as the regex replacement does. -/
def quoteKeysF (digitStart : Bool) : Nat → List Char → List Char
  | 0, cs => cs
  | _, [] => []
  | Nat.succ f, c :: rest =>
    if c = '{' || c = ',' then
      let ws1 := rest.takeWhile isRegexWs
      let r1 := rest.dropWhile isRegexWs
      let ident := r1.takeWhile isIdentChar
      let r2 := r1.dropWhile isIdentChar
      let okFirst := match ident with
        | [] => false
        | i0 :: _ => digitStart || !i0.isDigit
      if okFirst then
        (match r2.dropWhile isRegexWs with
         | ':' :: r4 =>
           c :: ws1 ++ '"' :: ident ++ '"' :: ':' :: quoteKeysF digitStart f r4
         | _ => c :: quoteKeysF digitStart f rest)
      else c :: quoteKeysF digitStart f rest
    else c :: quoteKeysF digitStart f rest

/-- `str.replace(/}(\s*){/g, '},$1{')`: insert a comma between adjacent
closing and opening braces. -/
def braceCommaF : Nat → List Char → List Char
  | 0, cs => cs
  | _, [] => []
  | Nat.succ f, c0 :: rest =>
    if c0 = '}' then
      match rest.dropWhile isRegexWs with
      | '{' :: r2 => '}' :: ',' :: rest.takeWhile isRegexWs ++ '{' :: braceCommaF f r2
      | _ => '}' :: braceCommaF f rest
    else c0 :: braceCommaF f rest

/-- `str.match(/\{[\s\S]*\}/)`: the span from the first `{` to the last `}`
at or after it, when both exist. -/
def jsonBraceMatch (cs : List Char) : Option (List Char) :=
  match cs.dropWhile (fun c => c ≠ '{') with
  | [] => none
  | l =>
    match (l.reverse.dropWhile (fun c => c ≠ '}')).reverse with
    | [] => none
    | m => some m

/-- The stage-3 fix chain of `repairJSON` (server.js lines 744-746):
trailing commas, then key quoting, then brace-comma insertion. -/
def stage3Fix (cs0 : List Char) : List Char :=
  let cs1 := fixTrailingCommasF cs0.length cs0
  let cs2 := quoteKeysF true cs1.length cs1
  braceCommaF cs2.length cs2

/-- `repairJSON(str)` of `src/backend/server.js`: `Except.error` models an
exception escaping the function (`throw e2` / a throwing `JSON.parse` on the
extracted span). -/
def repairJSON (s : String) : Except Unit Json :=
  match jsonParse s with
  | some v => .ok v
  | none =>
    let cs3 := stage3Fix (jsTrim (stripFences s.toList))
    match jsonParse (String.mk cs3) with
    | some v => .ok v
    | none =>
      match jsonBraceMatch cs3 with
      | some sub =>
        (match jsonParse (String.mk sub) with
         | some v => .ok v
         | none => .error ())
      | none => .error ()

/-- `cleaned.replace(/\/\/.*$/gm, '')`: drop each `//` and the rest of its
line (the newline itself stays). -/
def stripLineCommentsF : Nat → List Char → List Char
  | 0, cs => cs
  | _, [] => []
  | Nat.succ f, '/' :: '/' :: rest => stripLineCommentsF f (rest.dropWhile fun c => c ≠ '\n')
  | Nat.succ f, c :: rest => c :: stripLineCommentsF f rest

/-- Position after the closest `*/`, if any. -/
def dropToBlockEnd : List Char → Option (List Char)
  | '*' :: '/' :: rest => some rest
  | _ :: rest => dropToBlockEnd rest
  | [] => none

/-- `cleaned.replace(/\/\*[\s\S]*?\*\//g, '')`: drop each lazy `/* ... */`
block; a `/*` with no later `*/` matches nothing and stays. -/
def stripBlockCommentsF : Nat → List Char → List Char
  | 0, cs => cs
  | _, [] => []
  | Nat.succ f, '/' :: '*' :: rest =>
    (match dropToBlockEnd rest with
     | some r => stripBlockCommentsF f r
     | none => '/' :: '*' :: rest)
  | Nat.succ f, c :: rest => c :: stripBlockCommentsF f rest

/-- The step-4 "common fixes" batch of `parseJSONResponse`: single quotes to
double quotes, trailing commas, unquoted keys. -/
def commonFixes (cs : List Char) : List Char :=
  let cs1 := cs.map fun c => if c = Char.ofNat 39 then '"' else c
  let cs2 := fixTrailingCommasF cs1.length cs1
  quoteKeysF false cs2.length cs2

/-- One guarded parse attempt of `parseJSONResponse`:
`result && result.frames` or fall through. -/
def parseGuard (s : String) : Option Json :=
  match jsonParse s with
  | some v => if hasTruthyFrames v then some v else none
  | none => none

/-- The literal characters of the step-6 pattern head `"frames"`. -/
def framesKeyChars : List Char :=
  ['"', 'f', 'r', 'a', 'm', 'e', 's', '"']

/-- Try to match `"frames"\s*:\s*\[` at the head of `cs`; on success return
the matched characters and the remainder after the `[`. -/
def framesHead (cs : List Char) : Option (List Char × List Char) :=
  if isPrefixList framesKeyChars cs then
    let r0 := cs.drop 8
    let ws1 := r0.takeWhile isRegexWs
    match r0.dropWhile isRegexWs with
    | ':' :: r1 =>
      let ws2 := r1.takeWhile isRegexWs
      (match r1.dropWhile isRegexWs with
       | '[' :: r2 => some (framesKeyChars ++ ws1 ++ ':' :: ws2 ++ ['['], r2)
       | _ => none)
    | _ => none
  else none

/-- Leftmost match of `"frames"\s*:\s*\[`. -/
def findFrames : List Char → Option (List Char × List Char)
  | [] => none
  | c :: rest =>
    match framesHead (c :: rest) with
    | some hr => some hr
    | none => findFrames rest

/-- `cleaned.match(/"frames"\s*:\s*\[[\s\S]*\]/)`: the leftmost key match
extended greedily to the last `]`. -/
def framesArrayMatch (cs : List Char) : Option (List Char) :=
  match findFrames cs with
  | none => none
  | some (head, tail) =>
    match (tail.reverse.dropWhile (fun c => c ≠ ']')).reverse with
    | [] => none
    | m => some (head ++ m)

/-- Step 6 of `parseJSONResponse`: wrap the matched `"frames": [...]` span in
braces and parse, requiring an actual frames array. -/
def framesStep (cs : List Char) : Option Json :=
  match framesArrayMatch cs with
  | some m =>
    (match jsonParse (String.mk ('{' :: m ++ ['}'])) with
     | some v => if hasFramesArray v then some v else none
     | none => none)
  | none => none

/-- Stages 2-3 of `parseJSONResponse`: strip fences, trim, strip line and
block comments. -/
def cleanedText (text : String) : List Char :=
  let cs := jsTrim (stripFences text.toList)
  let cs1 := stripLineCommentsF cs.length cs
  stripBlockCommentsF cs1.length cs1

/-- Stages 5-6 of `parseJSONResponse`, applied to the fixed text: brace-span
extraction with re-applied fixes, then the frames-span rescue. -/
def extractStages (fixed : List Char) : Option Json :=
  match jsonBraceMatch fixed with
  | some sub =>
    (match parseGuard (String.mk (commonFixes sub)) with
     | some v => some v
     | none => framesStep fixed)
  | none => framesStep fixed

/-- `parseJSONResponse(text)` of the companion server file: the six-stage
repair pipeline that returns `null` (here `none`) when every stage fails,
and never throws. -/
def parseJSONResponse (text : String) : Option Json :=
  match parseGuard text with
  | some v => some v
  | none =>
    match parseGuard (String.mk (cleanedText text)) with
    | some v => some v
    | none =>
      match parseGuard (String.mk (commonFixes (cleanedText text))) with
      | some v => some v
      | none => extractStages (commonFixes (cleanedText text))

/-! ### A family of inputs differing from valid JSON only by trailing commas
and unquoted keys

`RVal`/`REls`/`RFds` describe JSON documents built from string leaves and
arbitrarily nested arrays and objects. `renderDoc` prints a document without
inter-token whitespace; each array or object may carry a trailing comma
(`trail`), and each object field may print its key as a bare identifier
(`bare`), so the rendered text differs from valid JSON exactly by those two
defect kinds. -/

mutual

/-- A JSON document with string leaves and defect annotations. -/
inductive RVal where
  | vstr (s : List Char)
  | varr (es : REls) (trail : Bool)
  | vobj (fs : RFds) (trail : Bool)

/-- The elements of an array. -/
inductive REls where
  | enil
  | econs (hd : RVal) (tl : REls)

/-- The fields of an object: `bare` prints the key unquoted. -/
inductive RFds where
  | fnil
  | fcons (bare : Bool) (key : List Char) (val : RVal) (tl : RFds)

end

/-- A string-literal character that keeps the fix regexes away: printable,
not a quote or backslash (so it needs no escaping), and none of the
characters a repair regex can match on (comma, braces, backtick). -/
def safeStrChar (c : Char) : Bool :=
  32 ≤ c.toNat && !(c = '"') && !(c = '\\') && !(c = ',') &&
    !(c = '{') && !(c = '}') && !(c = '`')

/-- A key character: a bare-identifier character that is also literal-safe. -/
def keyOk (c : Char) : Bool :=
  isIdentChar c && safeStrChar c

mutual

/-- Well-formedness: literal contents are safe, keys are non-empty
identifiers. -/
def wfVal : RVal → Bool
  | .vstr s => s.all safeStrChar
  | .varr es _ => wfEls es
  | .vobj fs _ => wfFds fs

def wfEls : REls → Bool
  | .enil => true
  | .econs hd tl => wfVal hd && wfEls tl

def wfFds : RFds → Bool
  | .fnil => true
  | .fcons _ k v tl => !k.isEmpty && k.all keyOk && wfVal v && wfFds tl

end

/-- The rendered trailing comma, present only in the defective rendering
(`tc` = keep trailing commas). -/
def trailChars (tc : Bool) (trail : Bool) : List Char :=
  if tc && trail then [','] else []

/-- The rendered key: bare only in the defective rendering (`bk` = keep bare
keys). -/
def keyChars (bk : Bool) (bare : Bool) (k : List Char) : List Char :=
  if bk && bare then k else '"' :: (k ++ ['"'])

mutual

/-- Render a document without inter-token whitespace. `tc` keeps the
trailing-comma defects, `bk` keeps the bare-key defects; with both `false`
the output is canonical valid JSON. -/
def renderDoc (tc bk : Bool) : RVal → List Char
  | .vstr s => '"' :: (s ++ ['"'])
  | .varr es trail => '[' :: (renderEls tc bk es ++ (trailChars tc trail ++ [']']))
  | .vobj fs trail => '{' :: (renderFds tc bk fs ++ (trailChars tc trail ++ ['}']))

def renderEls (tc bk : Bool) : REls → List Char
  | .enil => []
  | .econs hd .enil => renderDoc tc bk hd
  | .econs hd tl => renderDoc tc bk hd ++ ',' :: renderEls tc bk tl

def renderFds (tc bk : Bool) : RFds → List Char
  | .fnil => []
  | .fcons bare k v .fnil => keyChars bk bare k ++ ':' :: renderDoc tc bk v
  | .fcons bare k v tl =>
    keyChars bk bare k ++ ':' :: (renderDoc tc bk v ++ ',' :: renderFds tc bk tl)

end

mutual

/-- The JSON value a rendered document denotes. -/
def denote : RVal → Json
  | .vstr s => .str (String.mk s)
  | .varr es _ => .arr (denoteEls es)
  | .vobj fs _ => .obj (denoteFds fs)

def denoteEls : REls → List Json
  | .enil => []
  | .econs hd tl => denote hd :: denoteEls tl

def denoteFds : RFds → List (String × Json)
  | .fnil => []
  | .fcons _ k v tl => (String.mk k, denote v) :: denoteFds tl

end

/-- Whether a position does not look like the start of `\s*{`, so the
brace-comma regex cannot fire into it. -/
def notBraceHead (cs : List Char) : Bool :=
  match cs.dropWhile isRegexWs with
  | '{' :: _ => false
  | _ => true

/-- No `}` in the text is followed (up to whitespace) by a `{`: on such text
the brace-comma fix is the identity. -/
def noBB : List Char → Bool
  | [] => true
  | c :: rest => (if c = '}' then notBraceHead rest else true) && noBB rest

mutual

/-- Parser fuel sufficient for one rendered document. -/
def pfuel : RVal → Nat
  | .vstr _ => 1
  | .varr es _ => pfuelE es + 2
  | .vobj fs _ => pfuelF fs + 2

def pfuelE : REls → Nat
  | .enil => 0
  | .econs hd tl => pfuel hd + pfuelE tl + 2

def pfuelF : RFds → Nat
  | .fnil => 0
  | .fcons _ _ v tl => pfuel v + pfuelF tl + 2

end

/-! ### Concrete fixtures used by witnesses and counterexamples -/

/-- A first page whose top-level frame sets background `#FFF7ED`. -/
def pageA : PageData :=
  { type := "home"
    json := { frames := some [{ name := "Home", backgroundColor := some "#FFF7ED" }] } }

/-- A second page whose top-level frame sets background `#000000`. -/
def pageB : PageData :=
  { type := "detail"
    json := { frames := some [{ name := "D", backgroundColor := some "#000000" }] } }

/-- A page document with no `frames` key at all. -/
def pagePlain : PageData :=
  { type := "detail", json := {} }

/-- The button child used by `pageStyled`. -/
def styledButton : Child :=
  { type := "button", text := some "Get started", backgroundColor := some "#EA580C" }

/-- A page whose first frame has both a background color and a button. -/
def pageStyled : PageData :=
  { type := "home"
    json := { frames := some [{ name := "Home"
                                backgroundColor := some "#FFF7ED"
                                children := some [{ type := "text", text := some "Welcome" },
                                                  styledButton] }] } }

/-- A session that has produced two pages, with nothing pending and no
discovered interactive elements. -/
def projTwoPages : Project :=
  { createProject "n" "d" [] with pages := [pagePlain, pagePlain] }

/-- A pending queue holding two instances of `detail`. -/
def projTwoPending : Project :=
  createProject "n" "d" ["detail", "home", "detail"]

/-- Reachable-state chain: a fresh project with an empty request list, pushed
through `/api/generate-next-page` until it completes. -/
def wProj0 : Project := createProject "w" "d" []

/-- After one generation step (a `detail` page is recorded). -/
def wProj1 : Project := generateNextPageStep wProj0 pagePlain.json

/-- After two generation steps. -/
def wProj2 : Project := generateNextPageStep wProj1 pagePlain.json

/-- After the third step, which finds no next page and completes the session. -/
def wProj3 : Project := generateNextPageStep wProj2 pagePlain.json

/-! ### Helper lemmas -/

/-- `indexOf` + `splice` removes exactly the first occurrence. -/
theorem removeFirst_append (t : String) (l1 l2 : List String) (hn : t ∉ l1) :
    removeFirst t (l1 ++ t :: l2) = l1 ++ l2 := by
  induction l1 with
  | nil => simp [removeFirst]
  | cons x xs ih =>
    have hx : x ≠ t := fun h => hn (by simp [h])
    have hxs : t ∉ xs := fun h => hn (List.mem_cons_of_mem _ h)
    simp [removeFirst, hx, ih hxs]

/-- `addPageToProject` only rewrites the design system through
`updateDesignSystemColors`; every other field update is by record copy. -/
theorem addPageToProject_pendingPages (p : Project) (pd : PageData) :
    (addPageToProject p pd).pendingPages = removeFirst pd.type p.pendingPages := rfl

theorem addPageToProject_pages (p : Project) (pd : PageData) :
    (addPageToProject p pd).pages = p.pages ++ [pd] := rfl

theorem addPageToProject_interactiveElements (p : Project) (pd : PageData) :
    (addPageToProject p pd).interactiveElements =
      p.interactiveElements ++ extractInteractiveElements pd.json := rfl

theorem addPageToProject_status (p : Project) (pd : PageData) :
    (addPageToProject p pd).status = p.status := rfl

theorem addPageToProject_designSystem (p : Project) (pd : PageData) :
    (addPageToProject p pd).designSystem =
      updateDesignSystemColors p.designSystem pd.json := rfl

/-- Writing the primary color leaves the background field alone, so once the
background is written from the first frame it survives the button pass. -/
theorem updateDesignSystemColors_background (ds : DesignSystem) (j : PageJson)
    (f : Frame) (fs : List Frame) (c : String)
    (hf : j.frames = some (f :: fs)) (hb : f.backgroundColor = some c) (hc : c ≠ "") :
    (updateDesignSystemColors ds j).colors.background = some c := by
  simp only [updateDesignSystemColors, hf, hb, if_neg hc]
  repeat' split
  all_goals rfl

/-- The primary color written from the first button of the first frame. -/
theorem updateDesignSystemColors_primary (ds : DesignSystem) (j : PageJson)
    (f : Frame) (fs : List Frame) (ch : List Child) (btn : Child) (c : String)
    (hf : j.frames = some (f :: fs)) (hch : f.children = some ch)
    (hbtn : ch.find? (fun x => x.type = "button") = some btn)
    (hbb : btn.backgroundColor = some c) (hc : c ≠ "") :
    (updateDesignSystemColors ds j).colors.primary = some c := by
  simp only [updateDesignSystemColors, hf, hch, hbtn, hbb, if_neg hc]

/-- A status overwrite does not change what `getNextPageType` reads. -/
theorem getNextPageType_setStatus (p : Project) (s : String) :
    getNextPageType { p with status := s } = getNextPageType p := rfl

/-- Invariant of the route's own state machine: the status only becomes
`completed` when `getNextPageType` is the terminal signal, and no later step
disturbs that, so every reachable completed session has no next page. -/
theorem reachable_completed_no_next (p : Project) (hr : ReachableProject p) :
    p.status = "completed" → getNextPageType p = none := by
  induction hr with
  | init n d rp =>
    intro hs
    simp [createProject] at hs
  | step q d hq ih =>
    intro hs
    cases h : getNextPageType q with
    | none =>
      have hstep : generateNextPageStep q d = { q with status := "completed" } := by
        unfold generateNextPageStep
        rw [h]
      rw [hstep, getNextPageType_setStatus]
      exact h
    | some t =>
      have hstep : generateNextPageStep q d = addPageToProject q { type := t, json := d } := by
        unfold generateNextPageStep
        rw [h]
      rw [hstep, addPageToProject_status] at hs
      exact Option.noConfusion ((ih hs).symm.trans h)

/-- Every guarded parse of `parseJSONResponse` only succeeds on a value with
a truthy `frames` field. -/
theorem parseGuard_frames (s : String) (v : Json) (h : parseGuard s = some v) :
    hasTruthyFrames v = true := by
  unfold parseGuard at h
  cases hp : jsonParse s with
  | none =>
    simp only [hp] at h
    exact Option.noConfusion h
  | some w =>
    simp only [hp] at h
    by_cases hw : hasTruthyFrames w = true
    · rw [if_pos hw] at h
      cases h
      exact hw
    · rw [if_neg hw] at h
      exact Option.noConfusion h

/-- The step-6 guard is stronger than the earlier guards. -/
theorem hasFramesArray_truthy (v : Json) (h : hasFramesArray v = true) :
    hasTruthyFrames v = true := by
  unfold hasFramesArray at h
  unfold hasTruthyFrames
  simp only [Bool.and_eq_true] at h ⊢
  obtain ⟨h1, h2⟩ := h
  refine ⟨h1, ?_⟩
  cases hf : getField v "frames" with
  | none =>
    rw [hf] at h2
    exact absurd h2 (by simp)
  | some w =>
    simp only [hf] at h2 ⊢
    cases w <;> simp_all [jsTruthy]

/-- Frames-span extraction only succeeds on a value with a frames array. -/
theorem framesStep_frames (cs : List Char) (v : Json) (h : framesStep cs = some v) :
    hasTruthyFrames v = true := by
  unfold framesStep at h
  cases hm : framesArrayMatch cs with
  | none =>
    simp only [hm] at h
    exact Option.noConfusion h
  | some m =>
    simp only [hm] at h
    cases hp : jsonParse (String.mk ('{' :: m ++ ['}'])) with
    | none =>
      simp only [hp] at h
      exact Option.noConfusion h
    | some w =>
      simp only [hp] at h
      by_cases hw : hasFramesArray w = true
      · rw [if_pos hw] at h
        cases h
        exact hasFramesArray_truthy _ hw
      · rw [if_neg hw] at h
        exact Option.noConfusion h

/-- Stages 5-6 only succeed on a value with a truthy `frames` field. -/
theorem extractStages_frames (cs : List Char) :
    extractStages cs = none ∨
      ∃ v, extractStages cs = some v ∧ hasTruthyFrames v = true := by
  unfold extractStages
  split
  · split
    next v hg => exact Or.inr ⟨v, rfl, parseGuard_frames _ _ hg⟩
    next hg =>
      cases hf : framesStep cs with
      | none => exact Or.inl rfl
      | some v => exact Or.inr ⟨v, rfl, framesStep_frames _ _ hf⟩
  · cases hf : framesStep cs with
    | none => exact Or.inl rfl
    | some v => exact Or.inr ⟨v, rfl, framesStep_frames _ _ hf⟩

/-- The single-quoted-input fixture `{'frames': [1]}`, built with an explicit
apostrophe character. -/
def singleQuoteInput : String :=
  String.mk ("\x7bQframesQ: [QxQ]\x7d".toList.map fun c =>
    if c = 'Q' then Char.ofNat 39 else c)

/-! ### Scanner lemmas for the stage-3 fixes on rendered documents -/

/-- `dropWhile` never lengthens a list. -/
theorem dropWhileLenLe (p : Char → Bool) (l : List Char) :
    (l.dropWhile p).length ≤ l.length := by
  induction l with
  | nil => simp
  | cons a l ih =>
    by_cases h : p a = true
    · simp only [List.dropWhile_cons, h, if_true, List.length_cons]
      omega
    · simp [List.dropWhile_cons, h]

/-- Unpack the conjuncts of a safe literal character. -/
theorem safeStrChar_spec (c : Char) (h : safeStrChar c = true) :
    32 ≤ c.toNat ∧ c ≠ '"' ∧ c ≠ '\\' ∧ c ≠ ',' ∧ c ≠ '{' ∧ c ≠ '}' ∧ c ≠ '`' := by
  simp only [safeStrChar, Bool.and_eq_true, decide_eq_true_eq, Bool.not_eq_true',
    decide_eq_false_iff_not] at h
  exact ⟨h.1.1.1.1.1.1, h.1.1.1.1.1.2, h.1.1.1.1.2, h.1.1.1.2, h.1.1.2, h.1.2, h.2⟩

/-- A key character is an identifier character and literal-safe. -/
theorem keyOk_spec (c : Char) (h : keyOk c = true) :
    isIdentChar c = true ∧ safeStrChar c = true := by
  simpa [keyOk, Bool.and_eq_true] using h

/-- A key character is not regex whitespace. -/
theorem keyOk_not_ws (c : Char) (h : keyOk c = true) : isRegexWs c = false := by
  by_contra hw
  rw [Bool.not_eq_false] at hw
  simp only [isRegexWs, Bool.or_eq_true, decide_eq_true_eq] at hw
  rcases hw with ((((h1 | h1) | h1) | h1) | h1) | h1 <;> subst h1 <;> simp [keyOk, isIdentChar] at h

/-- `dropWhile` keeps a list whose head fails the predicate. -/
theorem dropWhile_cons_neg (p : Char → Bool) (c : Char) (cs : List Char)
    (h : p c = false) : (c :: cs).dropWhile p = c :: cs := by
  simp [List.dropWhile_cons, h]

/-- `takeWhile` takes nothing from a list whose head fails the predicate. -/
theorem takeWhile_cons_neg (p : Char → Bool) (c : Char) (cs : List Char)
    (h : p c = false) : (c :: cs).takeWhile p = [] := by
  simp [List.takeWhile_cons, h]

/-- `takeWhile` over an all-satisfying prefix up to a failing boundary. -/
theorem takeWhile_all_append (p : Char → Bool) (xs : List Char) (y : Char) (r : List Char)
    (hxs : ∀ c ∈ xs, p c = true) (hy : p y = false) :
    (xs ++ y :: r).takeWhile p = xs ∧ (xs ++ y :: r).dropWhile p = y :: r := by
  induction xs with
  | nil => simp [takeWhile_cons_neg _ _ _ hy, dropWhile_cons_neg _ _ _ hy]
  | cons x xs ih =>
    have hx : p x = true := hxs x (by simp)
    have ih2 := ih fun c hc => hxs c (by simp [hc])
    simp [List.takeWhile_cons, List.dropWhile_cons, hx, ih2.1, ih2.2]

/-- Reduce the key-quoting match when the character before the colon slot is
not a colon. -/
theorem qkMatchOther (ds : Bool) (k : Nat) (c0 c : Char) (r rest ws1 ident : List Char)
    (h : c ≠ ':') :
    (match c :: r with
     | ':' :: r4 => c0 :: ws1 ++ '"' :: ident ++ '"' :: ':' :: quoteKeysF ds k r4
     | _ => c0 :: quoteKeysF ds k rest) = c0 :: quoteKeysF ds k rest := by
  split
  next r4 heq =>
    exact absurd (List.cons.inj heq).1 h
  next => rfl

/-- `fixTrailingCommasF` ignores its exact fuel once it covers the input. -/
theorem ftIrrel : ∀ (n f g : Nat) (cs : List Char), cs.length ≤ n →
    cs.length ≤ f → cs.length ≤ g →
    fixTrailingCommasF f cs = fixTrailingCommasF g cs := by
  intro n
  induction n with
  | zero =>
    intro f g cs hn _ _
    have : cs = [] := List.length_eq_zero.mp (Nat.le_zero.mp hn)
    subst this
    cases f <;> cases g <;> rfl
  | succ n ih =>
    intro f g cs hn hf hg
    cases cs with
    | nil => cases f <;> cases g <;> rfl
    | cons c0 rest =>
      simp only [List.length_cons] at hn hf hg
      cases f with
      | zero => omega
      | succ f2 =>
        cases g with
        | zero => omega
        | succ g2 =>
          simp only [fixTrailingCommasF]
          by_cases hc : c0 = ','
          · simp only [if_pos hc]
            cases hd : rest.dropWhile isRegexWs with
            | nil =>
              have := ih f2 g2 rest (by omega) (by omega) (by omega)
              simp [this]
            | cons c r =>
              have hlen : (c :: r).length ≤ rest.length := by
                rw [← hd]; exact dropWhileLenLe _ _
              simp only [List.length_cons] at hlen
              by_cases hbr : c = '}' ∨ c = ']'
              · have := ih f2 g2 r (by omega) (by omega) (by omega)
                simp [hbr, this]
              · have := ih f2 g2 rest (by omega) (by omega) (by omega)
                simp [hbr, this]
          · have := ih f2 g2 rest (by omega) (by omega) (by omega)
            simp [hc, this]

/-- `quoteKeysF` ignores its exact fuel once it covers the input. -/
theorem qkIrrel (ds : Bool) : ∀ (n f g : Nat) (cs : List Char), cs.length ≤ n →
    cs.length ≤ f → cs.length ≤ g →
    quoteKeysF ds f cs = quoteKeysF ds g cs := by
  intro n
  induction n with
  | zero =>
    intro f g cs hn _ _
    have : cs = [] := List.length_eq_zero.mp (Nat.le_zero.mp hn)
    subst this
    cases f <;> cases g <;> rfl
  | succ n ih =>
    intro f g cs hn hf hg
    cases cs with
    | nil => cases f <;> cases g <;> rfl
    | cons c0 rest =>
      simp only [List.length_cons] at hn hf hg
      cases f with
      | zero => omega
      | succ f2 =>
        cases g with
        | zero => omega
        | succ g2 =>
          have hrec := ih f2 g2 rest (by omega) (by omega) (by omega)
          simp only [quoteKeysF]
          by_cases hc : (c0 = '{' || c0 = ',') = true
          · simp only [hc, if_true]
            have hr1 : (List.dropWhile isRegexWs rest).length ≤ rest.length :=
              dropWhileLenLe _ _
            have hr2 : (List.dropWhile isIdentChar (List.dropWhile isRegexWs rest)).length ≤
                (List.dropWhile isRegexWs rest).length := dropWhileLenLe _ _
            cases hok : (match List.takeWhile isIdentChar (List.dropWhile isRegexWs rest) with
              | [] => false
              | i0 :: _ => ds || !i0.isDigit) with
            | false =>
              simp [hok, hrec]
            | true =>
              simp only [hok, if_true]
              cases hd : List.dropWhile isRegexWs
                  (List.dropWhile isIdentChar (List.dropWhile isRegexWs rest)) with
              | nil => simp [hrec]
              | cons c r =>
                have hlen : (c :: r).length ≤
                    (List.dropWhile isIdentChar (List.dropWhile isRegexWs rest)).length := by
                  rw [← hd]; exact dropWhileLenLe _ _
                simp only [List.length_cons] at hlen
                by_cases hcol : c = ':'
                · subst hcol
                  have := ih f2 g2 r (by omega) (by omega) (by omega)
                  simp [this]
                · rw [qkMatchOther ds f2 c0 c r rest _ _ hcol,
                    qkMatchOther ds g2 c0 c r rest _ _ hcol, hrec]
          · have hc2 : (c0 = '{' || c0 = ',') = false := by
              cases hb : (c0 = '{' || c0 = ',') with
              | false => rfl
              | true => exact absurd hb hc
            simp [hc2, hrec]

/-- A non-comma character passes the trailing-comma scanner untouched. -/
theorem ftStepOther (f : Nat) (c : Char) (cs : List Char) (h : c ≠ ',') :
    fixTrailingCommasF (f + 1) (c :: cs) = c :: fixTrailingCommasF f cs := by
  simp [fixTrailingCommasF, h]

/-- A comma directly before a closing bracket is removed. -/
theorem ftStepTrail (f : Nat) (c : Char) (cs : List Char) (h : c = '}' ∨ c = ']') :
    fixTrailingCommasF (f + 1) (',' :: c :: cs) = c :: fixTrailingCommasF f cs := by
  have hws : isRegexWs c = false := by rcases h with h | h <;> subst h <;> decide
  simp [fixTrailingCommasF, dropWhile_cons_neg _ _ _ hws, takeWhile_cons_neg _ _ _ hws, h]

/-- A comma not followed (up to whitespace) by a closing bracket stays. -/
theorem ftStepComma (f : Nat) (c : Char) (r cs : List Char)
    (hd : cs.dropWhile isRegexWs = c :: r) (hc : ¬(c = '}' ∨ c = ']')) :
    fixTrailingCommasF (f + 1) (',' :: cs) = ',' :: fixTrailingCommasF f cs := by
  simp [fixTrailingCommasF, hd, hc]

/-- A comma-free stretch passes the trailing-comma scanner untouched. -/
theorem ftVerbatim (xs : List Char) (hxs : ∀ c ∈ xs, c ≠ ',') :
    ∀ (rest : List Char) (f : Nat), xs.length + rest.length ≤ f →
    fixTrailingCommasF f (xs ++ rest) = xs ++ fixTrailingCommasF rest.length rest := by
  induction xs with
  | nil =>
    intro rest f hf
    simp only [List.nil_append, List.length_nil] at hf ⊢
    exact ftIrrel rest.length f rest.length rest le_rfl (by omega) le_rfl
  | cons x xs ih =>
    intro rest f hf
    simp only [List.length_cons] at hf
    cases f with
    | zero => omega
    | succ f2 =>
      rw [List.cons_append, ftStepOther f2 x _ (hxs x (by simp)),
        ih (fun c hc => hxs c (by simp [hc])) rest f2 (by omega)]
      rfl

/-- A non-trigger character passes the key-quoting scanner untouched. -/
theorem qkStepOther (f : Nat) (c : Char) (cs : List Char)
    (h1 : c ≠ '{') (h2 : c ≠ ',') :
    quoteKeysF true (f + 1) (c :: cs) = c :: quoteKeysF true f cs := by
  have hb : (c = '{' || c = ',') = false := by simp [h1, h2]
  simp [quoteKeysF, hb]

/-- A trigger whose next character can start no identifier fires nothing. -/
theorem qkStepNonIdent (f : Nat) (t d : Char) (cs : List Char)
    (ht : t = '{' ∨ t = ',') (hd1 : isRegexWs d = false) (hd2 : isIdentChar d = false) :
    quoteKeysF true (f + 1) (t :: d :: cs) = t :: quoteKeysF true f (d :: cs) := by
  have htb : (t = '{' || t = ',') = true := by rcases ht with h | h <;> simp [h]
  simp [quoteKeysF, htb, dropWhile_cons_neg _ _ _ hd1, takeWhile_cons_neg _ _ _ hd2,
    takeWhile_cons_neg _ _ _ hd2]

/-- A trigger followed by a bare identifier key and a colon quotes the key,
dropping nothing else. -/
theorem qkStepBareKey (f : Nat) (t : Char) (k cs : List Char)
    (ht : t = '{' ∨ t = ',') (hk : k ≠ []) (hkall : ∀ c ∈ k, keyOk c = true) :
    quoteKeysF true (f + 1) (t :: (k ++ ':' :: cs))
      = t :: '"' :: (k ++ '"' :: ':' :: quoteKeysF true f cs) := by
  have htb : (t = '{' || t = ',') = true := by rcases ht with h | h <;> simp [h]
  obtain ⟨k0, k2, rfl⟩ : ∃ k0 k2, k = k0 :: k2 := by
    cases k with
    | nil => exact absurd rfl hk
    | cons a b => exact ⟨a, b, rfl⟩
  have hk0 : keyOk k0 = true := hkall k0 (by simp)
  have hk0ws : isRegexWs k0 = false := keyOk_not_ws _ hk0
  have hident : ∀ c ∈ k0 :: k2, isIdentChar c = true :=
    fun c hc => (keyOk_spec c (hkall c hc)).1
  have htk := takeWhile_all_append isIdentChar (k0 :: k2) ':' cs hident (by decide)
  simp only [quoteKeysF, htb, if_true, List.cons_append,
    dropWhile_cons_neg isRegexWs k0 (k2 ++ ':' :: cs) hk0ws,
    takeWhile_cons_neg isRegexWs k0 (k2 ++ ':' :: cs) hk0ws]
  simp only [List.cons_append] at htk
  rw [htk.1, htk.2]
  simp [dropWhile_cons_neg isRegexWs ':' cs (by decide)]

/-- A trigger-free stretch passes the key-quoting scanner untouched. -/
theorem qkVerbatim (xs : List Char) (hxs : ∀ c ∈ xs, c ≠ '{' ∧ c ≠ ',') :
    ∀ (rest : List Char) (f : Nat), xs.length + rest.length ≤ f →
    quoteKeysF true f (xs ++ rest) = xs ++ quoteKeysF true rest.length rest := by
  induction xs with
  | nil =>
    intro rest f hf
    simp only [List.nil_append, List.length_nil] at hf ⊢
    exact qkIrrel true rest.length f rest.length rest le_rfl (by omega) le_rfl
  | cons x xs ih =>
    intro rest f hf
    simp only [List.length_cons] at hf
    cases f with
    | zero => omega
    | succ f2 =>
      rw [List.cons_append, qkStepOther f2 x _ (hxs x (by simp)).1 (hxs x (by simp)).2,
        ih (fun c hc => hxs c (by simp [hc])) rest f2 (by omega)]
      rfl

/-- The brace-comma fix is the identity on adjacency-free text. -/
theorem bcId (cs : List Char) (h : noBB cs = true) :
    ∀ f, braceCommaF f cs = cs := by
  induction cs with
  | nil => intro f; cases f <;> rfl
  | cons c rest ih =>
    intro f
    simp only [noBB, Bool.and_eq_true] at h
    cases f with
    | zero => rfl
    | succ f2 =>
      by_cases hc : c = '}'
      · subst hc
        simp only [if_pos rfl] at h
        have hnb := h.1
        unfold notBraceHead at hnb
        simp only [braceCommaF, if_pos rfl]
        cases hd : rest.dropWhile isRegexWs with
        | nil =>
          rw [hd] at hnb
          rw [ih h.2 f2]
          simp
        | cons d r =>
          rw [hd] at hnb
          by_cases hdb : d = '{'
          · subst hdb
            simp at hnb
          · have harm : (match d :: r with
                | '{' :: r2 => '}' :: ',' :: rest.takeWhile isRegexWs ++ '{' :: braceCommaF f2 r2
                | _ => '}' :: braceCommaF f2 rest) = '}' :: braceCommaF f2 rest := by
              split
              next r2 heq => exact absurd (List.cons.inj heq).1 hdb
              next => rfl
            rw [harm, ih h.2 f2]
            simp
      · simp only [braceCommaF, if_neg hc]
        rw [ih h.2 f2]

/-- `noBB` ignores a brace-free stretch. -/
theorem noBBSkip (xs : List Char) (hxs : ∀ c ∈ xs, c ≠ '}') (rest : List Char) :
    noBB (xs ++ rest) = noBB rest := by
  induction xs with
  | nil => rfl
  | cons x xs ih =>
    simp only [List.cons_append, noBB, if_neg (hxs x (by simp)), Bool.true_and]
    exact ih fun c hc => hxs c (by simp [hc])

/-- Every rendered document starts with a quote or an opening bracket. -/
theorem renderDoc_head (tc bk : Bool) (v : RVal) :
    ∃ cs, renderDoc tc bk v = '"' :: cs ∨ renderDoc tc bk v = '[' :: cs ∨
      renderDoc tc bk v = '{' :: cs := by
  cases v with
  | vstr s => exact ⟨s ++ ['"'], Or.inl rfl⟩
  | varr es t => exact ⟨_, Or.inr (Or.inl rfl)⟩
  | vobj fs t => exact ⟨_, Or.inr (Or.inr rfl)⟩

/-- Every rendered document ends with a quote or a closing bracket. -/
theorem renderDoc_last (tc bk : Bool) (v : RVal) :
    ∃ ys c, renderDoc tc bk v = ys ++ [c] ∧ (c = '"' ∨ c = ']' ∨ c = '}') := by
  cases v with
  | vstr s =>
    exact ⟨'"' :: s, '"', by simp [renderDoc], Or.inl rfl⟩
  | varr es t =>
    refine ⟨'[' :: (renderEls tc bk es ++ trailChars tc t), ']', ?_, Or.inr (Or.inl rfl)⟩
    simp [renderDoc, List.append_assoc]
  | vobj fs t =>
    refine ⟨'{' :: (renderFds tc bk fs ++ trailChars tc t), '}', ?_, Or.inr (Or.inr rfl)⟩
    simp [renderDoc, List.append_assoc]

/-- JS `trim` leaves a rendered document alone. -/
theorem jsTrim_render (tc bk : Bool) (v : RVal) :
    jsTrim (renderDoc tc bk v) = renderDoc tc bk v := by
  obtain ⟨cs, hh⟩ := renderDoc_head tc bk v
  obtain ⟨ys, b, hconcat, hb⟩ := renderDoc_last tc bk v
  have hdw : (renderDoc tc bk v).dropWhile isRegexWs = renderDoc tc bk v := by
    rcases hh with h | h | h <;> rw [h] <;> exact dropWhile_cons_neg _ _ _ (by decide)
  have hbws : isRegexWs b = false := by rcases hb with h | h | h <;> subst h <;> decide
  unfold jsTrim
  rw [hdw, hconcat, List.reverse_append, List.reverse_singleton, List.singleton_append,
    dropWhile_cons_neg _ _ _ hbws, List.reverse_cons, List.reverse_reverse]

mutual

/-- No character of a rendered document is a backtick. -/
theorem renderDoc_noTick (tc bk : Bool) (v : RVal) (h : wfVal v = true) :
    ∀ c ∈ renderDoc tc bk v, c ≠ '`' := by
  cases v with
  | vstr s =>
    intro c hc
    simp only [renderDoc, List.mem_cons, List.mem_append, List.mem_singleton,
      List.not_mem_nil, or_false] at hc
    rcases hc with rfl | hc | rfl
    · decide
    · have hs := List.all_eq_true.mp (by simpa [wfVal] using h) c hc
      exact (safeStrChar_spec c (by simpa using hs)).2.2.2.2.2.2
    · decide
  | varr es t =>
    intro c hc
    simp only [renderDoc, List.mem_cons, List.mem_append, List.mem_singleton,
      List.not_mem_nil, or_false] at hc
    rcases hc with rfl | hc | hc | rfl
    · decide
    · exact renderEls_noTick tc bk es (by simpa [wfVal] using h) c hc
    · simp only [trailChars] at hc
      split at hc
      · simp only [List.mem_singleton] at hc
        subst hc; decide
      · simp at hc
    · decide
  | vobj fs t =>
    intro c hc
    simp only [renderDoc, List.mem_cons, List.mem_append, List.mem_singleton,
      List.not_mem_nil, or_false] at hc
    rcases hc with rfl | hc | hc | rfl
    · decide
    · exact renderFds_noTick tc bk fs (by simpa [wfVal] using h) c hc
    · simp only [trailChars] at hc
      split at hc
      · simp only [List.mem_singleton] at hc
        subst hc; decide
      · simp at hc
    · decide

/-- No character of rendered array elements is a backtick. -/
theorem renderEls_noTick (tc bk : Bool) (es : REls) (h : wfEls es = true) :
    ∀ c ∈ renderEls tc bk es, c ≠ '`' := by
  cases es with
  | enil => intro c hc; simp [renderEls] at hc
  | econs hd tl =>
    have hh : wfVal hd = true := by
      simp only [wfEls, Bool.and_eq_true] at h
      exact h.1
    have ht : wfEls tl = true := by
      simp only [wfEls, Bool.and_eq_true] at h
      exact h.2
    cases tl with
    | enil =>
      intro c hc
      exact renderDoc_noTick tc bk hd hh c hc
    | econs hd2 tl2 =>
      intro c hc
      simp only [renderEls, List.mem_append, List.mem_cons, List.not_mem_nil, or_false] at hc
      rcases hc with hc | rfl | hc
      · exact renderDoc_noTick tc bk hd hh c hc
      · decide
      · exact renderEls_noTick tc bk (.econs hd2 tl2) ht c hc

/-- No character of rendered object fields is a backtick. -/
theorem renderFds_noTick (tc bk : Bool) (fs : RFds) (h : wfFds fs = true) :
    ∀ c ∈ renderFds tc bk fs, c ≠ '`' := by
  cases fs with
  | fnil => intro c hc; simp [renderFds] at hc
  | fcons bare k v tl =>
    simp only [wfFds, Bool.and_eq_true] at h
    have hkall : ∀ c ∈ k, c ≠ '`' := by
      intro c hc
      have := List.all_eq_true.mp h.1.1.2 c hc
      exact (safeStrChar_spec c (keyOk_spec c (by simpa using this)).2).2.2.2.2.2.2
    have hkey : ∀ c ∈ keyChars bk bare k, c ≠ '`' := by
      intro c hc
      simp only [keyChars] at hc
      split at hc
      · exact hkall c hc
      · simp only [List.mem_cons, List.mem_append, List.mem_singleton,
          List.not_mem_nil, or_false] at hc
        rcases hc with rfl | hc | rfl
        · decide
        · exact hkall c hc
        · decide
    have hv : ∀ c ∈ renderDoc tc bk v, c ≠ '`' := renderDoc_noTick tc bk v h.1.2
    cases tl with
    | fnil =>
      intro c hc
      simp only [renderFds, List.mem_append, List.mem_cons, List.not_mem_nil, or_false] at hc
      rcases hc with hc | rfl | hc
      · exact hkey c hc
      · decide
      · exact hv c hc
    | fcons b2 k2 v2 tl2 =>
      intro c hc
      simp only [renderFds, List.mem_append, List.mem_cons, List.not_mem_nil, or_false] at hc
      rcases hc with hc | rfl | hc | rfl | hc
      · exact hkey c hc
      · decide
      · exact hv c hc
      · decide
      · exact renderFds_noTick tc bk (.fcons b2 k2 v2 tl2) h.2 c hc

end

/-- The json-fence pass is the identity on backtick-free text. -/
theorem stripFencesJson_id (cs : List Char) (h : ∀ c ∈ cs, c ≠ '`') :
    ∀ f, stripFencesJsonF f cs = cs := by
  induction cs with
  | nil => intro f; cases f <;> rfl
  | cons c rest ih =>
    intro f
    cases f with
    | zero => rfl
    | succ f2 =>
      have hpre : isPrefixList fenceJsonChars (c :: rest) = false := by
        have hc : ('`' = c) = False := by
          simp [Ne.symm (h c (by simp))]
        simp [fenceJsonChars, isPrefixList, hc]
      simp only [stripFencesJsonF, hpre, Bool.false_eq_true, if_false]
      rw [ih fun d hd => h d (by simp [hd])]

/-- The plain-fence pass is the identity on backtick-free text. -/
theorem stripFencesTick_id (cs : List Char) (h : ∀ c ∈ cs, c ≠ '`') :
    ∀ f, stripFencesTickF f cs = cs := by
  induction cs with
  | nil => intro f; cases f <;> rfl
  | cons c rest ih =>
    intro f
    cases f with
    | zero => rfl
    | succ f2 =>
      have hpre : isPrefixList fenceTickChars (c :: rest) = false := by
        have hc : ('`' = c) = False := by
          simp [Ne.symm (h c (by simp))]
        simp [fenceTickChars, isPrefixList, hc]
      simp only [stripFencesTickF, hpre, Bool.false_eq_true, if_false]
      rw [ih fun d hd => h d (by simp [hd])]

/-- Fence stripping is the identity on a rendered document. -/
theorem stripFences_render (tc bk : Bool) (v : RVal) (h : wfVal v = true) :
    stripFences (renderDoc tc bk v) = renderDoc tc bk v := by
  unfold stripFences
  rw [stripFencesJson_id _ (renderDoc_noTick tc bk v h),
    stripFencesTick_id _ (renderDoc_noTick tc bk v h)]

/-- The head of a rendered document is a quote or opening bracket, hence
neither whitespace, a closing bracket, nor an identifier character. -/
theorem renderDoc_head_props (tc bk : Bool) (v : RVal) :
    ∃ c cs, renderDoc tc bk v = c :: cs ∧ isRegexWs c = false ∧
      c ≠ '}' ∧ c ≠ ']' ∧ isIdentChar c = false := by
  obtain ⟨cs, h⟩ := renderDoc_head tc bk v
  rcases h with h | h | h
  · exact ⟨'"', cs, h, by decide, by decide, by decide, by decide⟩
  · exact ⟨'[', cs, h, by decide, by decide, by decide, by decide⟩
  · exact ⟨'{', cs, h, by decide, by decide, by decide, by decide⟩

/-- The head of a rendered non-empty field list is a key head: neither
whitespace nor a closing bracket. -/
theorem renderFds_head_props (tc bk bare : Bool) (k : List Char) (v : RVal) (tl : RFds)
    (hk : k ≠ []) (hkall : ∀ c ∈ k, keyOk c = true) :
    ∃ d ds, renderFds tc bk (.fcons bare k v tl) = d :: ds ∧
      isRegexWs d = false ∧ d ≠ '}' ∧ d ≠ ']' := by
  obtain ⟨k0, k2, rfl⟩ : ∃ k0 k2, k = k0 :: k2 := by
    cases k with
    | nil => exact absurd rfl hk
    | cons a b => exact ⟨a, b, rfl⟩
  have hk0 := hkall k0 (by simp)
  have hk0ws := keyOk_not_ws _ hk0
  have hk0safe := safeStrChar_spec k0 (keyOk_spec _ hk0).2
  have hkne : k0 ≠ ']' := by
    intro hh
    subst hh
    exact absurd hk0 (by decide)
  have hkbr : k0 ≠ '}' := hk0safe.2.2.2.2.2.1
  by_cases hb : (bk && bare) = true
  · cases tl with
    | fnil =>
      refine ⟨k0, k2 ++ ':' :: renderDoc tc bk v, ?_, hk0ws, hkbr, hkne⟩
      simp [renderFds, keyChars, hb, List.cons_append]
    | fcons b2 key2 v2 tl2 =>
      refine ⟨k0, k2 ++ ':' :: (renderDoc tc bk v ++
        ',' :: renderFds tc bk (.fcons b2 key2 v2 tl2)), ?_, hk0ws, hkbr, hkne⟩
      simp [renderFds, keyChars, hb, List.cons_append]
  · cases tl with
    | fnil =>
      refine ⟨'"', ((k0 :: k2) ++ ['"']) ++ ':' :: renderDoc tc bk v, ?_,
        by decide, by decide, by decide⟩
      simp [renderFds, keyChars, hb, List.cons_append, List.append_assoc]
    | fcons b2 key2 v2 tl2 =>
      refine ⟨'"', ((k0 :: k2) ++ ['"']) ++ ':' :: (renderDoc tc bk v ++
        ',' :: renderFds tc bk (.fcons b2 key2 v2 tl2)), ?_,
        by decide, by decide, by decide⟩
      simp [renderFds, keyChars, hb, List.cons_append, List.append_assoc]

/-- Disposal of the trailing comma (if any) and the closing bracket, after a
rendered fragment has been scanned. -/
theorem ftCloseStep (trail : Bool) (close : Char) (hclose : close = '}' ∨ close = ']')
    (rest : List Char) :
    fixTrailingCommasF (trailChars true trail ++ close :: rest).length
        (trailChars true trail ++ (close :: rest))
      = close :: fixTrailingCommasF rest.length rest := by
  have hcl : close ≠ ',' := by rcases hclose with h | h <;> subst h <;> decide
  cases trail with
  | false =>
    rw [show trailChars true false = ([] : List Char) from rfl]
    simp only [List.nil_append, List.length_cons]
    exact ftStepOther rest.length close rest hcl
  | true =>
    rw [show trailChars true true = ([','] : List Char) from rfl]
    simp only [List.singleton_append, List.length_cons]
    rw [ftStepTrail (rest.length + 1) close rest hclose,
      ftIrrel (rest.length + 1) (rest.length + 1) rest.length rest (by omega) (by omega) le_rfl]

mutual

/-- Trailing-comma removal turns a defective rendered document into the same
document rendered without trailing commas, leaving the continuation to a
fresh scan. -/
theorem ftDoc (v : RVal) : wfVal v = true → ∀ (rest : List Char) (f : Nat),
    (renderDoc true true v).length + rest.length ≤ f →
    fixTrailingCommasF f (renderDoc true true v ++ rest)
      = renderDoc false true v ++ fixTrailingCommasF rest.length rest := by
  cases v with
  | vstr s =>
    intro h rest f hf
    have hs : ∀ c ∈ ('"' :: (s ++ ['"']) : List Char), c ≠ ',' := by
      intro c hc
      simp only [List.mem_cons, List.mem_append, List.mem_singleton,
        List.not_mem_nil, or_false] at hc
      rcases hc with rfl | hc | rfl
      · decide
      · exact (safeStrChar_spec c (by
          simpa using List.all_eq_true.mp (by simpa [wfVal] using h) c hc)).2.2.2.1
      · decide
    exact ftVerbatim _ hs rest f hf
  | varr es t =>
    intro h rest f hf
    simp only [renderDoc, List.length_cons, List.length_append] at hf
    cases f with
    | zero => omega
    | succ f2 =>
      show fixTrailingCommasF (f2 + 1) ('[' :: ((renderEls true true es ++
          (trailChars true t ++ [']'])) ++ rest)) = '[' :: ((renderEls false true es ++
          (trailChars false t ++ [']'])) ++ fixTrailingCommasF rest.length rest)
      rw [ftStepOther f2 '[' _ (by decide)]
      have hsh : (renderEls true true es ++ (trailChars true t ++ [']'])) ++ rest
          = renderEls true true es ++ (trailChars true t ++ (']' :: rest)) := by
        simp [List.append_assoc]
      rw [hsh, ftEls es (by simpa [wfVal] using h) t rest f2 (by
        try simp only [List.length_append, List.length_cons] at hf
        try simp only [List.length_append, List.length_cons]
        omega)]
      simp [trailChars, List.append_assoc]
  | vobj fs t =>
    intro h rest f hf
    simp only [renderDoc, List.length_cons, List.length_append] at hf
    cases f with
    | zero => omega
    | succ f2 =>
      show fixTrailingCommasF (f2 + 1) ('{' :: ((renderFds true true fs ++
          (trailChars true t ++ ['}'])) ++ rest)) = '{' :: ((renderFds false true fs ++
          (trailChars false t ++ ['}'])) ++ fixTrailingCommasF rest.length rest)
      rw [ftStepOther f2 '{' _ (by decide)]
      have hsh : (renderFds true true fs ++ (trailChars true t ++ ['}'])) ++ rest
          = renderFds true true fs ++ (trailChars true t ++ ('}' :: rest)) := by
        simp [List.append_assoc]
      rw [hsh, ftFds fs (by simpa [wfVal] using h) t rest f2 (by
        try simp only [List.length_append, List.length_cons] at hf
        try simp only [List.length_append, List.length_cons]
        omega)]
      simp [trailChars, List.append_assoc]

/-- Trailing-comma removal over rendered array elements up to and including
the closing bracket. -/
theorem ftEls (es : REls) : wfEls es = true → ∀ (trail : Bool) (rest : List Char) (f : Nat),
    (renderEls true true es).length + (trailChars true trail).length + 1 + rest.length ≤ f →
    fixTrailingCommasF f (renderEls true true es ++ (trailChars true trail ++ (']' :: rest)))
      = renderEls false true es ++ (']' :: fixTrailingCommasF rest.length rest) := by
  cases es with
  | enil =>
    intro h trail rest f hf
    simp only [renderEls, List.length_nil, List.nil_append] at hf ⊢
    rw [ftIrrel f f (trailChars true trail ++ (']' :: rest)).length
        (trailChars true trail ++ (']' :: rest))
        (by simp only [List.length_append, List.length_cons]; omega)
        (by simp only [List.length_append, List.length_cons]; omega) le_rfl,
      ftCloseStep trail ']' (Or.inr rfl) rest]
  | econs hd tl =>
    intro h trail rest f hf
    have hhd : wfVal hd = true := by
      simp only [wfEls, Bool.and_eq_true] at h
      exact h.1
    have htl : wfEls tl = true := by
      simp only [wfEls, Bool.and_eq_true] at h
      exact h.2
    cases tl with
    | enil =>
      simp only [renderEls] at hf ⊢
      rw [ftDoc hd hhd (trailChars true trail ++ (']' :: rest)) f (by
        simp only [List.length_append, List.length_cons] at hf ⊢
        omega)]
      rw [ftCloseStep trail ']' (Or.inr rfl) rest]
    | econs hd2 tl2 =>
      simp only [renderEls] at hf ⊢
      have hsh : (renderDoc true true hd ++ ',' :: renderEls true true (.econs hd2 tl2)) ++
          (trailChars true trail ++ (']' :: rest))
          = renderDoc true true hd ++ (',' :: (renderEls true true (.econs hd2 tl2) ++
            (trailChars true trail ++ (']' :: rest)))) := by
        simp [List.append_assoc]
      rw [hsh]
      rw [ftDoc hd hhd (',' :: (renderEls true true (.econs hd2 tl2) ++
          (trailChars true trail ++ (']' :: rest)))) f (by
        try simp only [List.length_append, List.length_cons] at hf
        try simp only [List.length_append, List.length_cons]
        omega)]
      obtain ⟨c0, cs0, hc0, hws0, hbr0, hbk0, _⟩ :=
        renderDoc_head_props true true hd2
      have hX : ∃ xr, (renderEls true true (.econs hd2 tl2) ++
          (trailChars true trail ++ (']' :: rest))) = c0 :: xr := by
        cases tl2 <;>
          simp [renderEls, hc0, List.cons_append, List.append_assoc]
      obtain ⟨xr, hXr⟩ := hX
      rw [List.length_cons]
      rw [ftStepComma _ c0 xr _ (by rw [hXr]; exact dropWhile_cons_neg _ _ _ hws0)
        (by rintro (rfl | rfl) <;> [exact hbr0 rfl; exact hbk0 rfl])]
      rw [ftEls (.econs hd2 tl2) htl trail rest _ (by
        try simp only [List.length_append, List.length_cons]
        omega)]
      simp [List.append_assoc]

/-- Trailing-comma removal over rendered object fields up to and including
the closing brace. -/
theorem ftFds (fs : RFds) : wfFds fs = true → ∀ (trail : Bool) (rest : List Char) (f : Nat),
    (renderFds true true fs).length + (trailChars true trail).length + 1 + rest.length ≤ f →
    fixTrailingCommasF f (renderFds true true fs ++ (trailChars true trail ++ ('}' :: rest)))
      = renderFds false true fs ++ ('}' :: fixTrailingCommasF rest.length rest) := by
  cases fs with
  | fnil =>
    intro h trail rest f hf
    simp only [renderFds, List.length_nil, List.nil_append] at hf ⊢
    rw [ftIrrel f f (trailChars true trail ++ ('}' :: rest)).length
        (trailChars true trail ++ ('}' :: rest))
        (by simp only [List.length_append, List.length_cons]; omega)
        (by simp only [List.length_append, List.length_cons]; omega) le_rfl,
      ftCloseStep trail '}' (Or.inl rfl) rest]
  | fcons bare k v tl =>
    intro h trail rest f hf
    simp only [wfFds, Bool.and_eq_true] at h
    have hkind : ∀ c ∈ keyChars true bare k, c ≠ ',' := by
      intro c hc
      have hkall : ∀ c ∈ k, keyOk c = true := fun c hc => by
        simpa using List.all_eq_true.mp h.1.1.2 c hc
      simp only [keyChars] at hc
      split at hc
      · exact (safeStrChar_spec c (keyOk_spec c (hkall c hc)).2).2.2.2.1
      · simp only [List.mem_cons, List.mem_append, List.mem_singleton,
          List.not_mem_nil, or_false] at hc
        rcases hc with rfl | hc | rfl
        · decide
        · exact (safeStrChar_spec c (keyOk_spec c (hkall c hc)).2).2.2.2.1
        · decide
    have hkv : wfVal v = true := h.1.2
    have hktl : wfFds tl = true := h.2
    have hknil : k ≠ [] := by
      intro hk
      subst hk
      simp at h
    have hkall : ∀ c ∈ k, keyOk c = true := fun c hc => by
      simpa using List.all_eq_true.mp h.1.1.2 c hc
    cases tl with
    | fnil =>
      simp only [renderFds] at hf ⊢
      have hsh : (keyChars true bare k ++ ':' :: renderDoc true true v) ++
          (trailChars true trail ++ ('}' :: rest))
          = keyChars true bare k ++ (':' :: (renderDoc true true v ++
            (trailChars true trail ++ ('}' :: rest)))) := by
        simp [List.append_assoc]
      rw [hsh]
      rw [ftVerbatim _ hkind _ f (by
        try simp only [List.length_append, List.length_cons] at hf
        try simp only [List.length_append, List.length_cons]
        omega)]
      rw [List.length_cons,
        ftStepOther _ ':' _ (by decide)]
      rw [ftDoc v hkv (trailChars true trail ++ ('}' :: rest)) _ (by
        try simp only [List.length_append, List.length_cons]
        omega)]
      rw [ftCloseStep trail '}' (Or.inl rfl) rest]
      simp [List.append_assoc]
    | fcons b2 k2 v2 tl2 =>
      simp only [renderFds] at hf ⊢
      have hsh : (keyChars true bare k ++ ':' :: (renderDoc true true v ++
          ',' :: renderFds true true (.fcons b2 k2 v2 tl2))) ++
          (trailChars true trail ++ ('}' :: rest))
          = keyChars true bare k ++ (':' :: (renderDoc true true v ++
            (',' :: (renderFds true true (.fcons b2 k2 v2 tl2) ++
              (trailChars true trail ++ ('}' :: rest)))))) := by
        simp [List.append_assoc]
      rw [hsh]
      rw [ftVerbatim _ hkind _ f (by
        try simp only [List.length_append, List.length_cons] at hf
        try simp only [List.length_append, List.length_cons]
        omega)]
      rw [List.length_cons,
        ftStepOther _ ':' _ (by decide)]
      rw [ftDoc v hkv (',' :: (renderFds true true (.fcons b2 k2 v2 tl2) ++
          (trailChars true trail ++ ('}' :: rest)))) _ (by
        try simp only [List.length_append, List.length_cons]
        omega)]
      have hk2nil : k2 ≠ [] := by
        intro hk
        subst hk
        simp [wfFds] at hktl
      have hk2all : ∀ c ∈ k2, keyOk c = true := by
        intro c hc
        simp only [wfFds, Bool.and_eq_true] at hktl
        simpa using List.all_eq_true.mp hktl.1.1.2 c hc
      obtain ⟨d0, ds0, hd0, hws0, hbr0, hbk0⟩ :=
        renderFds_head_props true true b2 k2 v2 tl2 hk2nil hk2all
      have hX : ∃ xr, (renderFds true true (.fcons b2 k2 v2 tl2) ++
          (trailChars true trail ++ ('}' :: rest))) = d0 :: xr := by
        exact ⟨ds0 ++ (trailChars true trail ++ ('}' :: rest)), by
          rw [hd0, List.cons_append]⟩
      obtain ⟨xr, hXr⟩ := hX
      rw [List.length_cons]
      rw [ftStepComma _ d0 xr _ (by rw [hXr]; exact dropWhile_cons_neg _ _ _ hws0)
        (by rintro (rfl | rfl) <;> [exact hbr0 rfl; exact hbk0 rfl])]
      rw [ftFds (.fcons b2 k2 v2 tl2) hktl trail rest _ (by
        simp only [List.length_append, List.length_cons]
        omega)]
      simp [List.append_assoc]

end

mutual

/-- Key quoting turns a document rendered with bare keys into the canonical
rendering, leaving the continuation to a fresh scan. -/
theorem qkDoc (v : RVal) : wfVal v = true → ∀ (rest : List Char) (f : Nat),
    (renderDoc false true v).length + rest.length ≤ f →
    quoteKeysF true f (renderDoc false true v ++ rest)
      = renderDoc false false v ++ quoteKeysF true rest.length rest := by
  cases v with
  | vstr s =>
    intro h rest f hf
    have hs : ∀ c ∈ ('"' :: (s ++ ['"']) : List Char), c ≠ '{' ∧ c ≠ ',' := by
      intro c hc
      simp only [List.mem_cons, List.mem_append, List.mem_singleton,
        List.not_mem_nil, or_false] at hc
      rcases hc with rfl | hc | rfl
      · exact ⟨by decide, by decide⟩
      · have hsp := safeStrChar_spec c (by
          simpa using List.all_eq_true.mp (by simpa [wfVal] using h) c hc)
        exact ⟨hsp.2.2.2.2.1, hsp.2.2.2.1⟩
      · exact ⟨by decide, by decide⟩
    exact qkVerbatim _ hs rest f hf
  | varr es tr =>
    intro h rest f hf
    have hsh : renderDoc false true (.varr es tr) ++ rest
        = '[' :: (renderEls false true es ++ (']' :: rest)) := by
      simp [renderDoc, trailChars, List.append_assoc]
    rw [hsh]
    simp only [renderDoc, List.length_cons, List.length_append] at hf
    cases f with
    | zero => omega
    | succ f2 =>
      rw [qkStepOther f2 '[' _ (by decide) (by decide)]
      rw [qkEls es (by simpa [wfVal] using h) rest f2 (by
        try simp only [List.length_append, List.length_cons, List.length_nil] at hf
        try simp only [List.length_append, List.length_cons, List.length_nil]
        simp only [trailChars, Bool.false_and, Bool.false_eq_true, if_false,
          List.length_nil] at hf
        omega)]
      simp [renderDoc, trailChars, List.append_assoc]
  | vobj fs tr =>
    intro h rest f hf
    have hsh : renderDoc false true (.vobj fs tr) ++ rest
        = '{' :: (renderFds false true fs ++ ('}' :: rest)) := by
      simp [renderDoc, trailChars, List.append_assoc]
    rw [hsh]
    simp only [renderDoc, List.length_cons, List.length_append] at hf
    rw [qkFds '{' fs (Or.inl rfl) (by simpa [wfVal] using h) rest f (by
      try simp only [List.length_append, List.length_cons, List.length_nil] at hf
      simp only [trailChars, Bool.false_and, Bool.false_eq_true, if_false,
        List.length_nil] at hf
      omega)]
    simp [renderDoc, trailChars, List.append_assoc]

/-- Key quoting over rendered array elements up to and including the closing
bracket. -/
theorem qkEls (es : REls) : wfEls es = true → ∀ (rest : List Char) (f : Nat),
    (renderEls false true es).length + 1 + rest.length ≤ f →
    quoteKeysF true f (renderEls false true es ++ (']' :: rest))
      = renderEls false false es ++ (']' :: quoteKeysF true rest.length rest) := by
  cases es with
  | enil =>
    intro h rest f hf
    simp only [renderEls, List.length_nil, List.nil_append] at hf ⊢
    cases f with
    | zero => omega
    | succ f2 =>
      rw [qkStepOther f2 ']' _ (by decide) (by decide),
        qkIrrel true f2 f2 rest.length rest (by omega) (by omega) le_rfl]
  | econs hd tl =>
    intro h rest f hf
    have hhd : wfVal hd = true := by
      simp only [wfEls, Bool.and_eq_true] at h
      exact h.1
    have htl : wfEls tl = true := by
      simp only [wfEls, Bool.and_eq_true] at h
      exact h.2
    cases tl with
    | enil =>
      simp only [renderEls] at hf ⊢
      rw [qkDoc hd hhd (']' :: rest) f (by
        try simp only [List.length_append, List.length_cons] at hf
        try simp only [List.length_cons]
        omega)]
      rw [List.length_cons]
      cases hr : rest.length + 1 with
      | zero => omega
      | succ r2 =>
        rw [show r2 = rest.length from by omega]
        rw [qkStepOther rest.length ']' _ (by decide) (by decide)]
    | econs hd2 tl2 =>
      simp only [renderEls] at hf ⊢
      have hsh : (renderDoc false true hd ++ ',' :: renderEls false true (.econs hd2 tl2)) ++
          (']' :: rest)
          = renderDoc false true hd ++ (',' :: (renderEls false true (.econs hd2 tl2) ++
            (']' :: rest))) := by
        simp [List.append_assoc]
      rw [hsh]
      rw [qkDoc hd hhd (',' :: (renderEls false true (.econs hd2 tl2) ++ (']' :: rest))) f (by
        try simp only [List.length_append, List.length_cons] at hf
        try simp only [List.length_append, List.length_cons]
        omega)]
      obtain ⟨c0, cs0, hc0, hws0, _, _, hid0⟩ := renderDoc_head_props false true hd2
      have hX : ∃ xr, (renderEls false true (.econs hd2 tl2) ++ (']' :: rest)) = c0 :: xr := by
        cases tl2 <;>
          simp [renderEls, hc0, List.cons_append, List.append_assoc]
      obtain ⟨xr, hXr⟩ := hX
      rw [List.length_cons, hXr, List.length_cons]
      rw [qkStepNonIdent (xr.length + 1) ',' c0 xr (Or.inr rfl) hws0 hid0]
      rw [← List.length_cons c0 xr, ← hXr]
      rw [qkEls (.econs hd2 tl2) htl rest _ (by
        try simp only [List.length_append, List.length_cons]
        omega)]
      simp [List.append_assoc]

/-- Key quoting over a trigger character followed by rendered object fields
up to and including the closing brace: every bare key gets quoted. -/
theorem qkFds (t : Char) (fs : RFds) : (t = '{' ∨ t = ',') → wfFds fs = true →
    ∀ (rest : List Char) (f : Nat),
    1 + (renderFds false true fs).length + 1 + rest.length ≤ f →
    quoteKeysF true f (t :: (renderFds false true fs ++ ('}' :: rest)))
      = t :: (renderFds false false fs ++ ('}' :: quoteKeysF true rest.length rest)) := by
  cases fs with
  | fnil =>
    intro ht h rest f hf
    simp only [renderFds, List.nil_append] at hf ⊢
    cases f with
    | zero => omega
    | succ f2 =>
      rw [qkStepNonIdent f2 t '}' rest ht (by decide) (by decide)]
      cases f2 with
      | zero =>
        simp only [List.length_nil] at hf
        omega
      | succ f3 =>
        rw [qkStepOther f3 '}' _ (by decide) (by decide),
          qkIrrel true f3 f3 rest.length rest (by simp at hf; omega)
            (by simp at hf; omega) le_rfl]
  | fcons bare k v tl =>
    intro ht h rest f hf
    simp only [wfFds, Bool.and_eq_true] at h
    have hkv : wfVal v = true := h.1.2
    have hktl : wfFds tl = true := h.2
    have hknil : k ≠ [] := by
      intro hk
      subst hk
      simp at h
    have hkall : ∀ c ∈ k, keyOk c = true := fun c hc => by
      simpa using List.all_eq_true.mp h.1.1.2 c hc
    cases bare with
    | true =>
      cases tl with
      | fnil =>
        have hsh : t :: (renderFds false true (.fcons true k v .fnil) ++ ('}' :: rest))
            = t :: (k ++ ':' :: (renderDoc false true v ++ ('}' :: rest))) := by
          simp [renderFds, keyChars, List.append_assoc]
        rw [hsh]
        simp only [renderFds, keyChars, List.length_append, List.length_cons] at hf
        cases f with
        | zero => omega
        | succ f2 =>
          rw [qkStepBareKey f2 t k _ ht hknil hkall]
          rw [qkDoc v hkv ('}' :: rest) f2 (by
            try simp only [List.length_append, List.length_cons] at hf
            try simp only [List.length_append, List.length_cons]
            omega)]
          rw [List.length_cons]
          cases hr : rest.length + 1 with
          | zero => omega
          | succ r2 =>
            rw [show r2 = rest.length from by omega]
            rw [qkStepOther rest.length '}' _ (by decide) (by decide)]
            simp [renderFds, keyChars, List.append_assoc]
      | fcons b2 k2 v2 tl2 =>
        have hsh : t :: (renderFds false true (.fcons true k v (.fcons b2 k2 v2 tl2)) ++
            ('}' :: rest))
            = t :: (k ++ ':' :: (renderDoc false true v ++
              (',' :: (renderFds false true (.fcons b2 k2 v2 tl2) ++ ('}' :: rest))))) := by
          simp [renderFds, keyChars, List.append_assoc]
        rw [hsh]
        cases f with
        | zero =>
          simp only [renderFds, keyChars, List.length_append, List.length_cons] at hf
          omega
        | succ f2 =>
          rw [qkStepBareKey f2 t k _ ht hknil hkall]
          rw [qkDoc v hkv (',' :: (renderFds false true (.fcons b2 k2 v2 tl2) ++
              ('}' :: rest))) f2 (by
            simp only [renderFds, keyChars, List.length_append, List.length_cons] at hf
            try simp only [List.length_append, List.length_cons]
            omega)]
          rw [qkFds ',' (.fcons b2 k2 v2 tl2) (Or.inr rfl) hktl rest _ (by
            try simp only [List.length_append, List.length_cons]
            omega)]
          simp [renderFds, keyChars, List.append_assoc]
    | false =>
      have hquoted : ∀ c ∈ ('"' :: (k ++ ['"']) : List Char) ++ [':'], c ≠ '{' ∧ c ≠ ',' := by
        intro c hc
        simp only [List.mem_append, List.mem_cons, List.mem_singleton,
          List.not_mem_nil, or_false] at hc
        rcases hc with (rfl | hc | rfl) | rfl
        · exact ⟨by decide, by decide⟩
        · have hsp := safeStrChar_spec c (keyOk_spec c (hkall c hc)).2
          exact ⟨hsp.2.2.2.2.1, hsp.2.2.2.1⟩
        · exact ⟨by decide, by decide⟩
        · exact ⟨by decide, by decide⟩
      cases tl with
      | fnil =>
        have hsh : t :: (renderFds false true (.fcons false k v .fnil) ++ ('}' :: rest))
            = t :: ('"' :: ((k ++ ['"']) ++ (':' :: (renderDoc false true v ++
              ('}' :: rest))))) := by
          simp [renderFds, keyChars, List.append_assoc]
        rw [hsh]
        cases f with
        | zero =>
          simp only [renderFds, keyChars, List.length_append, List.length_cons] at hf
          omega
        | succ f2 =>
          rw [qkStepNonIdent f2 t '"' _ ht (by decide) (by decide)]
          have hv : ('"' :: ((k ++ ['"']) ++ (':' :: (renderDoc false true v ++ ('}' :: rest)))))
              = (('"' :: (k ++ ['"'])) ++ [':']) ++ (renderDoc false true v ++ ('}' :: rest)) := by
            simp [List.append_assoc]
          rw [hv]
          rw [qkVerbatim _ hquoted _ f2 (by
            simp only [renderFds, keyChars, Bool.true_and, Bool.false_eq_true, if_false,
              List.length_append, List.length_cons, List.length_nil] at hf
            try simp only [List.length_append, List.length_cons, List.length_nil]
            omega)]
          rw [qkDoc v hkv ('}' :: rest) _ (by
            try simp only [List.length_append, List.length_cons]
            omega)]
          rw [List.length_cons]
          cases hr : rest.length + 1 with
          | zero => omega
          | succ r2 =>
            rw [show r2 = rest.length from by omega]
            rw [qkStepOther rest.length '}' _ (by decide) (by decide)]
            simp [renderFds, keyChars, List.append_assoc]
      | fcons b2 k2 v2 tl2 =>
        have hsh : t :: (renderFds false true (.fcons false k v (.fcons b2 k2 v2 tl2)) ++
            ('}' :: rest))
            = t :: ('"' :: ((k ++ ['"']) ++ (':' :: (renderDoc false true v ++
              (',' :: (renderFds false true (.fcons b2 k2 v2 tl2) ++ ('}' :: rest))))))) := by
          simp [renderFds, keyChars, List.append_assoc]
        rw [hsh]
        cases f with
        | zero =>
          simp only [renderFds, keyChars, List.length_append, List.length_cons] at hf
          omega
        | succ f2 =>
          rw [qkStepNonIdent f2 t '"' _ ht (by decide) (by decide)]
          have hv : ('"' :: ((k ++ ['"']) ++ (':' :: (renderDoc false true v ++
              (',' :: (renderFds false true (.fcons b2 k2 v2 tl2) ++ ('}' :: rest)))))))
              = (('"' :: (k ++ ['"'])) ++ [':']) ++ (renderDoc false true v ++
                (',' :: (renderFds false true (.fcons b2 k2 v2 tl2) ++ ('}' :: rest)))) := by
            simp [List.append_assoc]
          rw [hv]
          rw [qkVerbatim _ hquoted _ f2 (by
            simp only [renderFds, keyChars, Bool.true_and, Bool.false_eq_true, if_false,
              List.length_append, List.length_cons, List.length_nil] at hf
            try simp only [List.length_append, List.length_cons, List.length_nil]
            omega)]
          rw [qkDoc v hkv (',' :: (renderFds false true (.fcons b2 k2 v2 tl2) ++
              ('}' :: rest))) _ (by
            try simp only [List.length_append, List.length_cons]
            omega)]
          rw [qkFds ',' (.fcons b2 k2 v2 tl2) (Or.inr rfl) hktl rest _ (by
            try simp only [List.length_append, List.length_cons]
            omega)]
          simp [renderFds, keyChars, List.append_assoc]

end

/-- `noBB` passes over a single non-`}` character. -/
theorem noBB_cons (c : Char) (rest : List Char) (hc : c ≠ '}') :
    noBB (c :: rest) = noBB rest := by
  simp [noBB, hc]

/-- A non-whitespace, non-`{` head cannot start a brace-comma match. -/
theorem notBraceHead_cons (c : Char) (rest : List Char)
    (hws : isRegexWs c = false) (hc : c ≠ '{') : notBraceHead (c :: rest) = true := by
  unfold notBraceHead
  rw [dropWhile_cons_neg _ _ _ hws]
  split
  next heq => exact absurd (List.cons.inj heq).1 hc
  next => rfl

mutual

/-- No `}{` adjacency arises inside a canonically rendered document, so the
whole text is adjacency-free whenever the continuation starts safely. -/
theorem nbDoc (v : RVal) : wfVal v = true → ∀ (rest : List Char),
    notBraceHead rest = true →
    noBB (renderDoc false false v ++ rest) = noBB rest := by
  cases v with
  | vstr s =>
    intro h rest _
    refine noBBSkip _ ?_ rest
    intro c hc
    simp only [renderDoc, List.mem_cons, List.mem_append, List.mem_singleton,
      List.not_mem_nil, or_false] at hc
    rcases hc with rfl | hc | rfl
    · decide
    · exact (safeStrChar_spec c (by
        simpa using List.all_eq_true.mp (by simpa [wfVal] using h) c hc)).2.2.2.2.2.1
    · decide
  | varr es tr =>
    intro h rest _
    have hsh : renderDoc false false (.varr es tr) ++ rest
        = '[' :: (renderEls false false es ++ (']' :: rest)) := by
      simp [renderDoc, trailChars, List.append_assoc]
    rw [hsh, noBB_cons '[' _ (by decide)]
    exact nbEls es (by simpa [wfVal] using h) rest
  | vobj fs tr =>
    intro h rest hrest
    have hsh : renderDoc false false (.vobj fs tr) ++ rest
        = '{' :: (renderFds false false fs ++ ('}' :: rest)) := by
      simp [renderDoc, trailChars, List.append_assoc]
    rw [hsh, noBB_cons '{' _ (by decide)]
    exact nbFds fs (by simpa [wfVal] using h) rest hrest

/-- Adjacency-freedom across rendered array elements and their `]`. -/
theorem nbEls (es : REls) : wfEls es = true → ∀ (rest : List Char),
    noBB (renderEls false false es ++ (']' :: rest)) = noBB rest := by
  cases es with
  | enil =>
    intro _ rest
    simp only [renderEls, List.nil_append]
    exact noBB_cons ']' rest (by decide)
  | econs hd tl =>
    intro h rest
    have hhd : wfVal hd = true := by
      simp only [wfEls, Bool.and_eq_true] at h
      exact h.1
    have htl : wfEls tl = true := by
      simp only [wfEls, Bool.and_eq_true] at h
      exact h.2
    cases tl with
    | enil =>
      simp only [renderEls]
      rw [nbDoc hd hhd (']' :: rest) (notBraceHead_cons _ _ (by decide) (by decide))]
      exact noBB_cons ']' rest (by decide)
    | econs hd2 tl2 =>
      simp only [renderEls]
      have hsh : (renderDoc false false hd ++ ',' :: renderEls false false (.econs hd2 tl2)) ++
          (']' :: rest)
          = renderDoc false false hd ++
            (',' :: (renderEls false false (.econs hd2 tl2) ++ (']' :: rest))) := by
        simp [List.append_assoc]
      rw [hsh]
      rw [nbDoc hd hhd _ (notBraceHead_cons _ _ (by decide) (by decide))]
      rw [noBB_cons ',' _ (by decide)]
      exact nbEls (.econs hd2 tl2) htl rest

/-- Adjacency-freedom across rendered object fields and their `}`. -/
theorem nbFds (fs : RFds) : wfFds fs = true → ∀ (rest : List Char),
    notBraceHead rest = true →
    noBB (renderFds false false fs ++ ('}' :: rest)) = noBB rest := by
  cases fs with
  | fnil =>
    intro _ rest hrest
    simp [renderFds, noBB, hrest]
  | fcons bare k v tl =>
    intro h rest hrest
    simp only [wfFds, Bool.and_eq_true] at h
    have hkv : wfVal v = true := h.1.2
    have hktl : wfFds tl = true := h.2
    have hkall : ∀ c ∈ k, keyOk c = true := fun c hc => by
      simpa using List.all_eq_true.mp h.1.1.2 c hc
    have hkey : ∀ c ∈ (('"' :: (k ++ ['"'])) ++ [':'] : List Char), c ≠ '}' := by
      intro c hc
      simp only [List.mem_append, List.mem_cons, List.mem_singleton,
        List.not_mem_nil, or_false] at hc
      rcases hc with (rfl | hc | rfl) | rfl
      · decide
      · exact (safeStrChar_spec c (keyOk_spec c (hkall c hc)).2).2.2.2.2.2.1
      · decide
      · decide
    cases tl with
    | fnil =>
      have hsh : renderFds false false (.fcons bare k v .fnil) ++ ('}' :: rest)
          = (('"' :: (k ++ ['"'])) ++ [':']) ++ (renderDoc false false v ++ ('}' :: rest)) := by
        simp [renderFds, keyChars, List.append_assoc]
      rw [hsh, noBBSkip _ hkey]
      rw [nbDoc v hkv ('}' :: rest) (notBraceHead_cons _ _ (by decide) (by decide))]
      simp [noBB, hrest]
    | fcons b2 k2 v2 tl2 =>
      have hsh : renderFds false false (.fcons bare k v (.fcons b2 k2 v2 tl2)) ++ ('}' :: rest)
          = (('"' :: (k ++ ['"'])) ++ [':']) ++ (renderDoc false false v ++
            (',' :: (renderFds false false (.fcons b2 k2 v2 tl2) ++ ('}' :: rest)))) := by
        simp [renderFds, keyChars, List.append_assoc]
      rw [hsh, noBBSkip _ hkey]
      rw [nbDoc v hkv _ (notBraceHead_cons _ _ (by decide) (by decide))]
      rw [noBB_cons ',' _ (by decide)]
      exact nbFds (.fcons b2 k2 v2 tl2) hktl rest hrest

end

/-- The brace-comma fix leaves a canonically rendered document unchanged. -/
theorem bc_render (v : RVal) (h : wfVal v = true) (f : Nat) :
    braceCommaF f (renderDoc false false v) = renderDoc false false v := by
  refine bcId _ ?_ f
  have hb := nbDoc v h [] (by decide)
  rw [List.append_nil] at hb
  simpa using hb

/-! ### Parser correctness on canonical renderings -/

theorem skipWs_cons (c : Char) (cs : List Char) (h : isJsonWs c = false) :
    skipWs (c :: cs) = c :: cs := by
  simp [skipWs, List.dropWhile_cons, h]

theorem isJsonWs_le_regex (c : Char) (h : isRegexWs c = false) : isJsonWs c = false := by
  by_contra hw
  rw [Bool.not_eq_false] at hw
  simp only [isJsonWs, Bool.or_eq_true, decide_eq_true_eq] at hw
  rcases hw with ((rfl | rfl) | rfl) | rfl <;> simp [isRegexWs] at h

theorem parseStringBody_safe (s : List Char) (hs : ∀ c ∈ s, safeStrChar c = true) :
    ∀ (rest : List Char), parseStringBody (s ++ '"' :: rest) = some (s, rest) := by
  induction s with
  | nil =>
    intro rest
    rw [List.nil_append, parseStringBody.eq_def]
    simp
  | cons c cs ih =>
    intro rest
    have hsp := safeStrChar_spec c (hs c (by simp))
    have h1 : ¬(c = '"') := hsp.2.1
    have h2 : ¬(c = '\\') := hsp.2.2.1
    have h3 : ¬(c.toNat < 32) := by omega
    rw [List.cons_append, parseStringBody.eq_def]
    simp [h1, h2, h3, ih (fun d hd => hs d (by simp [hd]))]

theorem pvStepStr (f : Nat) (X : List Char) :
    parseValue (f + 1) ('"' :: X)
      = (parseStringBody X).map fun sr => (Json.str (String.mk sr.1), sr.2) := rfl

theorem pvStepArrEmpty (f : Nat) (rest : List Char) :
    parseValue (f + 1) ('[' :: (']' :: rest)) = some (.arr [], rest) := rfl

theorem pvStepObjEmpty (f : Nat) (rest : List Char) :
    parseValue (f + 1) ('{' :: ('}' :: rest)) = some (.obj [], rest) := rfl

theorem pvStepArr (f : Nat) (d : Char) (X : List Char)
    (hws : isJsonWs d = false) (hne : d ≠ ']') :
    parseValue (f + 1) ('[' :: d :: X)
      = (parseElems f (d :: X)).map fun er => (Json.arr er.1, er.2) := by
  simp only [parseValue]
  rw [skipWs_cons _ _ (by decide)]
  simp only []
  rw [skipWs_cons _ _ hws]
  split
  next r2 heq => exact absurd (List.cons.inj heq).1 hne
  next => rfl

theorem pvStepObj (f : Nat) (d : Char) (X : List Char)
    (hws : isJsonWs d = false) (hne : d ≠ '}') :
    parseValue (f + 1) ('{' :: d :: X)
      = (parseFields f (d :: X)).map fun fr => (Json.obj fr.1, fr.2) := by
  simp only [parseValue]
  rw [skipWs_cons _ _ (by decide)]
  simp only []
  rw [skipWs_cons _ _ hws]
  split
  next r2 heq => exact absurd (List.cons.inj heq).1 hne
  next => rfl

theorem peStepClose (f : Nat) (cs : List Char) (v : Json) (rest : List Char)
    (hv : parseValue f cs = some (v, ']' :: rest)) :
    parseElems (f + 1) cs = some ([v], rest) := by
  simp only [parseElems, hv]
  rw [skipWs_cons _ _ (by decide)]
  split
  next r2 heq => exact absurd (List.cons.inj heq).1 (by decide)
  next r2 heq => rw [(List.cons.inj heq).2]
  next h1 h2 => exact absurd rfl (h2 rest)

theorem peStepComma (f : Nat) (cs : List Char) (v : Json) (X : List Char)
    (hv : parseValue f cs = some (v, ',' :: X)) :
    parseElems (f + 1) cs = (parseElems f X).map fun er => (v :: er.1, er.2) := by
  simp only [parseElems, hv]
  rw [skipWs_cons _ _ (by decide)]
  split
  next r2 heq => rw [(List.cons.inj heq).2]
  next r2 heq => exact absurd (List.cons.inj heq).1 (by decide)
  next h1 h2 => exact absurd rfl (h1 X)

theorem pfStepClose (f : Nat) (k Z : List Char) (v : Json) (rest : List Char)
    (hk : ∀ c ∈ k, safeStrChar c = true)
    (hv : parseValue f Z = some (v, '}' :: rest)) :
    parseFields (f + 1) ('"' :: (k ++ '"' :: ':' :: Z))
      = some ([(String.mk k, v)], rest) := by
  simp only [parseFields]
  rw [skipWs_cons _ _ (by decide)]
  simp only [parseStringBody_safe k hk (':' :: Z)]
  rw [skipWs_cons _ _ (by decide)]
  simp only [hv]
  rw [skipWs_cons _ _ (by decide)]
  split
  next r2 heq => exact absurd (List.cons.inj heq).1 (by decide)
  next r2 heq => rw [(List.cons.inj heq).2]
  next h1 h2 => exact absurd rfl (h2 rest)

theorem pfStepComma (f : Nat) (k Z : List Char) (v : Json) (X : List Char)
    (hk : ∀ c ∈ k, safeStrChar c = true)
    (hv : parseValue f Z = some (v, ',' :: X)) :
    parseFields (f + 1) ('"' :: (k ++ '"' :: ':' :: Z))
      = (parseFields f X).map fun fr => ((String.mk k, v) :: fr.1, fr.2) := by
  simp only [parseFields]
  rw [skipWs_cons _ _ (by decide)]
  simp only [parseStringBody_safe k hk (':' :: Z)]
  rw [skipWs_cons _ _ (by decide)]
  simp only [hv]
  rw [skipWs_cons _ _ (by decide)]
  split
  next r2 heq => rw [(List.cons.inj heq).2]
  next r2 heq => exact absurd (List.cons.inj heq).1 (by decide)
  next h1 h2 => exact absurd rfl (h1 X)

mutual

theorem pvDoc (v : RVal) : wfVal v = true → ∀ (rest : List Char) (f : Nat),
    pfuel v ≤ f →
    parseValue f (renderDoc false false v ++ rest) = some (denote v, rest) := by
  cases v with
  | vstr s =>
    intro h rest f hf
    have hs : ∀ c ∈ s, safeStrChar c = true := fun c hc => by
      simpa using List.all_eq_true.mp (by simpa [wfVal] using h) c hc
    cases f with
    | zero => simp [pfuel] at hf
    | succ f2 =>
      have hsh : renderDoc false false (.vstr s) ++ rest = '"' :: (s ++ ('"' :: rest)) := by
        simp [renderDoc]
      rw [hsh, pvStepStr f2 _, parseStringBody_safe s hs rest]
      rfl
  | varr es tr =>
    intro h rest f hf
    cases f with
    | zero => simp [pfuel] at hf
    | succ f2 =>
      cases es with
      | enil =>
        have hsh : renderDoc false false (.varr .enil tr) ++ rest = '[' :: (']' :: rest) := by
          simp [renderDoc, renderEls, trailChars]
        rw [hsh, pvStepArrEmpty]
        simp [denote, denoteEls]
      | econs hd tl =>
        have hsh : renderDoc false false (.varr (.econs hd tl) tr) ++ rest
            = '[' :: (renderEls false false (.econs hd tl) ++ (']' :: rest)) := by
          simp [renderDoc, trailChars, List.append_assoc]
        rw [hsh]
        obtain ⟨c0, cs0, hc0, hws0, hbr0, hbk0, _⟩ := renderDoc_head_props false false hd
        have hE : ∃ xr, renderEls false false (.econs hd tl) ++ (']' :: rest) = c0 :: xr := by
          cases tl <;> simp [renderEls, hc0, List.cons_append, List.append_assoc]
        obtain ⟨xr, hXr⟩ := hE
        rw [hXr, pvStepArr f2 c0 xr (isJsonWs_le_regex c0 hws0) hbk0, ← hXr]
        rw [peEls (.econs hd tl) (by simp) (by simpa [wfVal] using h) rest f2 (by
          simp only [pfuel] at hf
          omega)]
        simp [denote]
  | vobj fs tr =>
    intro h rest f hf
    cases f with
    | zero => simp [pfuel] at hf
    | succ f2 =>
      cases fs with
      | fnil =>
        have hsh : renderDoc false false (.vobj .fnil tr) ++ rest = '{' :: ('}' :: rest) := by
          simp [renderDoc, renderFds, trailChars]
        rw [hsh, pvStepObjEmpty]
        simp [denote, denoteFds]
      | fcons bare k v2 tl =>
        have hsh : renderDoc false false (.vobj (.fcons bare k v2 tl) tr) ++ rest
            = '{' :: (renderFds false false (.fcons bare k v2 tl) ++ ('}' :: rest)) := by
          simp [renderDoc, trailChars, List.append_assoc]
        rw [hsh]
        have hF : ∃ xr, renderFds false false (.fcons bare k v2 tl) ++ ('}' :: rest)
            = '"' :: xr := by
          cases tl <;> simp [renderFds, keyChars, List.cons_append, List.append_assoc]
        obtain ⟨xr, hXr⟩ := hF
        rw [hXr, pvStepObj f2 '"' xr (by decide) (by decide), ← hXr]
        rw [pfFds (.fcons bare k v2 tl) (by simp) (by simpa [wfVal] using h) rest f2 (by
          simp only [pfuel] at hf
          omega)]
        simp [denote]

theorem peEls (es : REls) : es ≠ .enil → wfEls es = true → ∀ (rest : List Char) (f : Nat),
    pfuelE es ≤ f →
    parseElems f (renderEls false false es ++ (']' :: rest)) = some (denoteEls es, rest) := by
  cases es with
  | enil => intro hne; exact absurd rfl hne
  | econs hd tl =>
    intro _ h rest f hf
    have hhd : wfVal hd = true := by
      simp only [wfEls, Bool.and_eq_true] at h
      exact h.1
    have htl : wfEls tl = true := by
      simp only [wfEls, Bool.and_eq_true] at h
      exact h.2
    simp only [pfuelE] at hf
    cases f with
    | zero => omega
    | succ f2 =>
      cases tl with
      | enil =>
        simp only [renderEls]
        have hv := pvDoc hd hhd (']' :: rest) f2 (by omega)
        rw [peStepClose f2 _ (denote hd) rest hv]
        simp [denoteEls]
      | econs hd2 tl2 =>
        simp only [renderEls]
        have hsh : (renderDoc false false hd ++ ',' :: renderEls false false (.econs hd2 tl2)) ++
            (']' :: rest)
            = renderDoc false false hd ++
              (',' :: (renderEls false false (.econs hd2 tl2) ++ (']' :: rest))) := by
          simp [List.append_assoc]
        rw [hsh]
        have hv := pvDoc hd hhd (',' :: (renderEls false false (.econs hd2 tl2) ++ (']' :: rest)))
          f2 (by omega)
        rw [peStepComma f2 _ (denote hd) _ hv]
        rw [peEls (.econs hd2 tl2) (by simp) htl rest f2 (by
          simp only [pfuelE] at hf ⊢
          omega)]
        simp [denoteEls]

theorem pfFds (fs : RFds) : fs ≠ .fnil → wfFds fs = true → ∀ (rest : List Char) (f : Nat),
    pfuelF fs ≤ f →
    parseFields f (renderFds false false fs ++ ('}' :: rest)) = some (denoteFds fs, rest) := by
  cases fs with
  | fnil => intro hne; exact absurd rfl hne
  | fcons bare k v tl =>
    intro _ h rest f hf
    simp only [wfFds, Bool.and_eq_true] at h
    have hkv : wfVal v = true := h.1.2
    have hktl : wfFds tl = true := h.2
    have hkall : ∀ c ∈ k, safeStrChar c = true := fun c hc =>
      (keyOk_spec c (by simpa using List.all_eq_true.mp h.1.1.2 c hc)).2
    simp only [pfuelF] at hf
    cases f with
    | zero => omega
    | succ f2 =>
      cases tl with
      | fnil =>
        have hsh : renderFds false false (.fcons bare k v .fnil) ++ ('}' :: rest)
            = '"' :: (k ++ '"' :: ':' :: (renderDoc false false v ++ ('}' :: rest))) := by
          simp [renderFds, keyChars, List.cons_append, List.append_assoc]
        rw [hsh]
        have hv := pvDoc v hkv ('}' :: rest) f2 (by omega)
        rw [pfStepClose f2 k _ (denote v) rest hkall hv]
        simp [denoteFds]
      | fcons b2 k2 v2 tl2 =>
        have hsh : renderFds false false (.fcons bare k v (.fcons b2 k2 v2 tl2)) ++ ('}' :: rest)
            = '"' :: (k ++ '"' :: ':' :: (renderDoc false false v ++
              (',' :: (renderFds false false (.fcons b2 k2 v2 tl2) ++ ('}' :: rest))))) := by
          simp [renderFds, keyChars, List.cons_append, List.append_assoc]
        rw [hsh]
        have hv := pvDoc v hkv (',' :: (renderFds false false (.fcons b2 k2 v2 tl2) ++
          ('}' :: rest))) f2 (by omega)
        rw [pfStepComma f2 k _ (denote v) _ hkall hv]
        rw [pfFds (.fcons b2 k2 v2 tl2) (by simp) hktl rest f2 (by
          simp only [pfuelF] at hf ⊢
          omega)]
        simp [denoteFds]

end

mutual

theorem pfuelDocLe (v : RVal) : pfuel v ≤ 2 * (renderDoc false false v).length := by
  cases v with
  | vstr s =>
    simp only [pfuel, renderDoc, List.length_cons, List.length_append, List.length_singleton]
    omega
  | varr es tr =>
    have h := pfuelElsLe es
    simp only [pfuel, renderDoc, trailChars, Bool.false_and, Bool.false_eq_true, if_false,
      List.length_cons, List.length_append, List.length_nil]
    omega
  | vobj fs tr =>
    have h := pfuelFdsLe fs
    simp only [pfuel, renderDoc, trailChars, Bool.false_and, Bool.false_eq_true, if_false,
      List.length_cons, List.length_append, List.length_nil]
    omega

theorem pfuelElsLe (es : REls) : pfuelE es ≤ 2 * (renderEls false false es).length + 2 := by
  cases es with
  | enil => simp [pfuelE]
  | econs hd tl =>
    have h1 := pfuelDocLe hd
    cases tl with
    | enil =>
      simp only [pfuelE, renderEls]
      omega
    | econs hd2 tl2 =>
      have h2 := pfuelElsLe (.econs hd2 tl2)
      simp only [pfuelE, renderEls, List.length_append, List.length_cons] at h2 ⊢
      omega

theorem pfuelFdsLe (fs : RFds) : pfuelF fs ≤ 2 * (renderFds false false fs).length + 2 := by
  cases fs with
  | fnil => simp [pfuelF]
  | fcons bare k v tl =>
    have h1 := pfuelDocLe v
    cases tl with
    | fnil =>
      simp only [pfuelF, renderFds, keyChars, Bool.false_and, Bool.false_eq_true, if_false,
        List.length_append, List.length_cons, List.length_singleton]
      omega
    | fcons b2 k2 v2 tl2 =>
      have h2 := pfuelFdsLe (.fcons b2 k2 v2 tl2)
      simp only [pfuelF, renderFds, keyChars, Bool.false_and, Bool.false_eq_true, if_false,
        List.length_append, List.length_cons, List.length_singleton] at h2 ⊢
      omega

end

theorem jsonParse_mk (cs : List Char) : jsonParse (String.mk cs)
    = match parseValue (2 * cs.length + 4) cs with
      | some (v, rest) => if skipWs rest = [] then some v else none
      | none => none := rfl

/-- The canonical rendering of a well-formed document parses to its
denoted value. -/
theorem jsonParse_renderC (r : RVal) (h : wfVal r = true) :
    jsonParse (String.mk (renderDoc false false r)) = some (denote r) := by
  rw [jsonParse_mk]
  have hv := pvDoc r h [] (2 * (renderDoc false false r).length + 4) (by
    have := pfuelDocLe r
    omega)
  rw [List.append_nil] at hv
  rw [hv]
  rfl

theorem stage3Fix_eq (cs0 : List Char) : stage3Fix cs0
    = braceCommaF (quoteKeysF true (fixTrailingCommasF cs0.length cs0).length
        (fixTrailingCommasF cs0.length cs0)).length
      (quoteKeysF true (fixTrailingCommasF cs0.length cs0).length
        (fixTrailingCommasF cs0.length cs0)) := rfl

/-- The stage-3 fix chain normalizes a defective rendering (trailing commas,
bare keys) to the canonical rendering. -/
theorem stage3_render (r : RVal) (h : wfVal r = true) :
    stage3Fix (jsTrim (stripFences (renderDoc true true r))) = renderDoc false false r := by
  rw [stripFences_render true true r h, jsTrim_render true true r, stage3Fix_eq]
  have h1 : fixTrailingCommasF (renderDoc true true r).length (renderDoc true true r)
      = renderDoc false true r := by
    have hft := ftDoc r h [] (renderDoc true true r).length (by simp)
    rw [List.append_nil] at hft
    rw [show fixTrailingCommasF ([] : List Char).length [] = [] from rfl,
      List.append_nil] at hft
    exact hft
  rw [h1]
  have h2 : quoteKeysF true (renderDoc false true r).length (renderDoc false true r)
      = renderDoc false false r := by
    have hqk := qkDoc r h [] (renderDoc false true r).length (by simp)
    rw [List.append_nil] at hqk
    rw [show quoteKeysF true ([] : List Char).length [] = [] from rfl,
      List.append_nil] at hqk
    exact hqk
  rw [h2]
  exact bc_render r h _

/-- The defective rendering fixture: bare key and trailing comma,
`\x7bframes:["f",]\x7d`. -/
def claim7doc : RVal :=
  .vobj (.fcons true "frames".toList
    (.varr (.econs (.vstr "f".toList) .enil) true) .fnil) false

/-! ### Claim theorems -/

/-- Claim C1, counterexample: on the unrecoverable input `"{"`, the
`repairJSON` pipeline of server.js re-throws (`throw e2`) instead of
reporting failure, so an uncaught exception does cross the pipeline
boundary; the companion `parseJSONResponse` returns the explicit `null`
signal on the same input. -/
theorem claim1_counterexample :
    repairJSON "\x7b" = Except.error () ∧ parseJSONResponse "\x7b" = none := ⟨rfl, rfl⟩

/-- Claim C1, amended: `parseJSONResponse` never throws — for every input it
terminates with either the explicit failure signal or a parsed value that
carries a truthy `frames` field; `repairJSON` of server.js, by contrast, may
throw on unrecoverable input. -/
theorem claim1_amended (s : String) :
    parseJSONResponse s = none ∨
      ∃ v, parseJSONResponse s = some v ∧ hasTruthyFrames v = true := by
  unfold parseJSONResponse
  split
  next v h => exact Or.inr ⟨v, rfl, parseGuard_frames _ _ h⟩
  next h =>
    split
    next v h2 => exact Or.inr ⟨v, rfl, parseGuard_frames _ _ h2⟩
    next h2 =>
      split
      next v h3 => exact Or.inr ⟨v, rfl, parseGuard_frames _ _ h3⟩
      next h3 => exact extractStages_frames _

/-- Claim C2, counterexample: at the spec's own example — first page
background `#FFF7ED`, second page background `#000000` — the design-system
summary reports `#000000`: `updateDesignSystem` overwrites unconditionally,
so the merge is last-writer-wins, not first-writer-wins. -/
theorem claim2_counterexample :
    (addPageToProject
      (addPageToProject (createProject "Shop" "an online store" ["home", "detail"]) pageA)
      pageB).designSystem.colors.background = some "#000000" ∧
    ("#000000" : String) ≠ "#FFF7ED" := by
  refine ⟨rfl, ?_⟩
  decide

/-- Claim C2, amended: the color merge is last-writer-wins — every
`RecordPage` whose first frame carries a non-empty background color
overwrites the summary background, and likewise the first button's non-empty
background color overwrites the summary primary color. -/
theorem claim2_amended (project : Project) (pageData : PageData)
    (f : Frame) (fs : List Frame) (ch : List Child) (btn : Child) (c c2 : String)
    (hf : pageData.json.frames = some (f :: fs))
    (hb : f.backgroundColor = some c) (hc : c ≠ "")
    (hch : f.children = some ch)
    (hbtn : ch.find? (fun x => x.type = "button") = some btn)
    (hbb : btn.backgroundColor = some c2) (hc2 : c2 ≠ "") :
    (addPageToProject project pageData).designSystem.colors.background = some c ∧
    (addPageToProject project pageData).designSystem.colors.primary = some c2 := by
  rw [addPageToProject_designSystem]
  exact ⟨updateDesignSystemColors_background _ _ f fs c hf hb hc,
         updateDesignSystemColors_primary _ _ f fs ch btn c2 hf hch hbtn hbb hc2⟩

/-- Claim C2, witness: a concrete recorded page with background `#FFF7ED`
and an orange button establishes both summary colors. -/
theorem claim2_witness :
    (addPageToProject (createProject "w2" "d" ["home"]) pageStyled).designSystem.colors.background
        = some "#FFF7ED" ∧
    (addPageToProject (createProject "w2" "d" ["home"]) pageStyled).designSystem.colors.primary
        = some "#EA580C" :=
  claim2_amended (createProject "w2" "d" ["home"]) pageStyled
    _ _ _ _ _ _ rfl rfl (by decide) rfl rfl rfl (by decide)

/-- Claim C3, counterexample: a session with an empty pending queue and no
discovered interactive elements (and no produced pages) gets `detail` from
`getNextPageType`, not the terminal signal: the code's guard is
`elements > pages - 2`, which holds at `0 > -2`. -/
theorem claim3_counterexample :
    (createProject "n" "d" []).pendingPages = [] ∧
    (createProject "n" "d" []).interactiveElements = [] ∧
    getNextPageType (createProject "n" "d" []) = some "detail" := ⟨rfl, rfl, rfl⟩

/-- Claim C3, amended: with an empty pending queue and no discovered
interactive elements, `getNextPageType` returns the terminal signal exactly
when at least two pages have been produced; with fewer pages it still
returns `detail`. -/
theorem claim3_amended (project : Project)
    (hp : project.pendingPages = []) (he : project.interactiveElements = []) :
    getNextPageType project = none ↔ 2 ≤ project.pages.length := by
  unfold getNextPageType
  rw [hp, he]
  by_cases h : (0 : Int) > (project.pages.length : Int) - 2 <;>
    simp [h] <;> omega

/-- Claim C3, witness: after two produced pages the amended equivalence
yields the terminal signal. -/
theorem claim3_witness : getNextPageType projTwoPages = none :=
  (claim3_amended projTwoPages rfl rfl).mpr (by decide)

/-- Claim C4, counterexample: for the keyword-free description
`"an online store"` the derived default sequence starts with a login page
(the code unconditionally puts login first), not a home page. -/
theorem claim4_counterexample :
    jsIncludes (lowerChars "an online store") "login" = false ∧
    jsIncludes (lowerChars "an online store") "auth" = false ∧
    analyzeDescriptionForPages "an online store"
      = ["login", "home", "detail", "detail", "detail"] ∧
    ("login" : String) ≠ "home" := by
  refine ⟨rfl, rfl, rfl, ?_⟩
  decide

/-- Claim C4, amended: for every description — whether or not it mentions
login/auth — the default sequence starts with a login page followed by the
home page, and has total length at least 4. -/
theorem claim4_amended (description : String) :
    (analyzeDescriptionForPages description).take 2 = ["login", "home"] ∧
    4 ≤ (analyzeDescriptionForPages description).length := by
  unfold analyzeDescriptionForPages
  refine ⟨rfl, ?_⟩
  simp only [List.length_append, List.length_cons, List.length_nil]
  split_ifs <;> simp

/-- Claim C5, counterexample: an input that is valid JSON except for one
bare hex-color token is not recovered by any stage — no fix wraps hex tokens
in quotes — so the pipeline declares failure (and server.js's `repairJSON`
throws) even though the quoted variant parses directly. -/
theorem claim5_counterexample :
    jsonParse "\x7b\"frames\": [\x7b\"backgroundColor\": \"#FFF\"\x7d]\x7d"
      = some (Json.obj [("frames", Json.arr [Json.obj [("backgroundColor", Json.str "#FFF")]])]) ∧
    parseJSONResponse "\x7b\"frames\": [\x7b\"backgroundColor\": #FFF\x7d]\x7d" = none ∧
    repairJSON "\x7b\"frames\": [\x7b\"backgroundColor\": #FFF\x7d]\x7d" = Except.error () :=
  ⟨rfl, rfl, rfl⟩

/-- Claim C5, amended: stage-3 normalization does rewrite single-quoted
strings to double-quoted ones, so an input that is valid JSON except for
single quotes parses successfully; bare hex-color tokens are never wrapped
and such inputs fail. -/
theorem claim5_amended :
    parseJSONResponse singleQuoteInput
      = some (Json.obj [("frames", Json.arr [Json.str "x"])]) := rfl

/-- Claim C6: `addPageToProject` removes exactly the first pending instance
of the recorded page's type, keeping every other entry in order — so with
two queued instances one call removes one and a second call the other,
never both at once. -/
theorem claim6_theorem (project : Project) (pageData : PageData) (l1 l2 : List String)
    (h : project.pendingPages = l1 ++ pageData.type :: l2) (hn : pageData.type ∉ l1) :
    (addPageToProject project pageData).pendingPages = l1 ++ l2 := by
  rw [addPageToProject_pendingPages, h]
  exact removeFirst_append _ _ _ hn

/-- Claim C6, witness: recording a `detail` page against the queue
`[detail, home, detail]` leaves `[home, detail]`. -/
theorem claim6_witness :
    (addPageToProject projTwoPending pagePlain).pendingPages = ["home", "detail"] :=
  claim6_theorem projTwoPending pagePlain [] ["home", "detail"] rfl (by simp)

/-- Claim C7, counterexample: an input differing from valid JSON only by one
trailing comma is not always recovered — the key-quoting regex also fires
inside string literals, corrupting `"b,c: d"` into `"b,"c": d"`, after which
every later stage fails and `repairJSON` throws. -/
theorem claim7_counterexample :
    jsonParse "\x7b\"frames\": [], \"a\": \"b,c: d\"\x7d"
      = some (Json.obj [("frames", Json.arr []), ("a", Json.str "b,c: d")]) ∧
    repairJSON "\x7b\"frames\": [], \"a\": \"b,c: d\",\x7d" = Except.error () := ⟨rfl, rfl⟩

/-- Claim C7, amended: for every document built from double-quoted string
literals of printable characters free of comma, brace, backtick, quote and
backslash, and from arbitrarily nested arrays and objects rendered without
inter-token whitespace — where any array or object may carry a trailing comma
and any object key may stand bare — `repairJSON` parses the defective
rendering successfully; the key-quoting regex is blind to string boundaries,
so a string literal carrying a comma-identifier-colon sequence can instead be
corrupted, making `repairJSON` throw. -/
theorem claim7_amended (r : RVal) (h : wfVal r = true) :
    ∃ v, repairJSON (String.mk (renderDoc true true r)) = Except.ok v := by
  cases hp : jsonParse (String.mk (renderDoc true true r)) with
  | some v =>
    exact ⟨v, by simp only [repairJSON, hp]⟩
  | none =>
    refine ⟨denote r, ?_⟩
    have hcs : stage3Fix (jsTrim (stripFences (String.mk (renderDoc true true r)).toList))
        = renderDoc false false r := by
      rw [show (String.mk (renderDoc true true r)).toList = renderDoc true true r from rfl]
      exact stage3_render r h
    simp only [repairJSON, hp, hcs, jsonParse_renderC r h]

/-- Claim C7, witness: the defective rendering `\x7bframes:["f",]\x7d` — bare
key and trailing comma — is well-formed for the amended claim and repaired
successfully. -/
theorem claim7_witness :
    wfVal claim7doc = true ∧
    String.mk (renderDoc true true claim7doc) = "\x7bframes:[\"f\",]\x7d" ∧
    ∃ v, repairJSON (String.mk (renderDoc true true claim7doc)) = Except.ok v :=
  ⟨by decide, by decide, claim7_amended claim7doc (by decide)⟩

/-- Claim C8: the pipeline is idempotent on well-formed input — whenever the
string parses directly, `repairJSON` returns exactly that parse, touched by
no repair stage. -/
theorem claim8_theorem (s : String) (v : Json) (h : jsonParse s = some v) :
    repairJSON s = Except.ok v := by
  unfold repairJSON
  rw [h]

/-- Claim C8, witness: a concrete valid document with a `frames` array. -/
theorem claim8_witness :
    jsonParse "\x7b\"frames\": []\x7d" = some (Json.obj [("frames", Json.arr [])]) ∧
    repairJSON "\x7b\"frames\": []\x7d" = Except.ok (Json.obj [("frames", Json.arr [])]) :=
  ⟨rfl, claim8_theorem _ _ rfl⟩

/-- Claim C9: a reachable session that has completed accepts no further
recording — one more `/api/generate-next-page` request leaves its pages,
pending queue, counters and design-system summary unchanged, and the session
stays queryable in the `completed` status. -/
theorem claim9_theorem (p : Project) (d : PageJson)
    (hr : ReachableProject p) (hs : p.status = "completed") :
    (generateNextPageStep p d).pages = p.pages ∧
    (generateNextPageStep p d).pendingPages = p.pendingPages ∧
    (generateNextPageStep p d).currentPageIndex = p.currentPageIndex ∧
    (generateNextPageStep p d).completedPages = p.completedPages ∧
    (generateNextPageStep p d).designSystem = p.designSystem ∧
    (generateNextPageStep p d).interactiveElements = p.interactiveElements ∧
    (generateNextPageStep p d).status = "completed" := by
  have h := reachable_completed_no_next p hr hs
  unfold generateNextPageStep
  rw [h]
  exact ⟨rfl, rfl, rfl, rfl, rfl, rfl, rfl⟩

/-- Claim C9, witness: the concrete session completed after two recorded
pages is frozen by a further request. -/
theorem claim9_witness :
    (generateNextPageStep wProj3 pagePlain.json).pages = wProj3.pages ∧
    (generateNextPageStep wProj3 pagePlain.json).pendingPages = wProj3.pendingPages ∧
    (generateNextPageStep wProj3 pagePlain.json).currentPageIndex = wProj3.currentPageIndex ∧
    (generateNextPageStep wProj3 pagePlain.json).completedPages = wProj3.completedPages ∧
    (generateNextPageStep wProj3 pagePlain.json).designSystem = wProj3.designSystem ∧
    (generateNextPageStep wProj3 pagePlain.json).interactiveElements = wProj3.interactiveElements ∧
    (generateNextPageStep wProj3 pagePlain.json).status = "completed" :=
  claim9_theorem wProj3 pagePlain.json
    (ReachableProject.step wProj2 pagePlain.json
      (ReachableProject.step wProj1 pagePlain.json
        (ReachableProject.step wProj0 pagePlain.json
          (ReachableProject.init "w" "d" []))))
    rfl

/-- Claim C10: extraction of interactive elements is total at the session
boundary — a page document with no `frames` key, an empty frames list, or a
childless first frame yields the empty element list, and recording such a
page still appends it while adding no interactive elements. -/
theorem claim10_theorem (project : Project) (pd : PageData)
    (h : pd.json.frames = none ∨ pd.json.frames = some [] ∨
         ∃ f fs, pd.json.frames = some (f :: fs) ∧ f.children = none) :
    extractInteractiveElements pd.json = [] ∧
    (addPageToProject project pd).pages = project.pages ++ [pd] ∧
    (addPageToProject project pd).interactiveElements = project.interactiveElements := by
  have hx : extractInteractiveElements pd.json = [] := by
    rcases h with h | h | ⟨f, fs, hf, hc⟩
    · simp [extractInteractiveElements, h]
    · simp [extractInteractiveElements, h]
    · simp [extractInteractiveElements, hf, hc]
  refine ⟨hx, addPageToProject_pages _ _, ?_⟩
  rw [addPageToProject_interactiveElements, hx, List.append_nil]

/-- Claim C10, witness: recording a page whose document has no `frames` key. -/
theorem claim10_witness :
    extractInteractiveElements pagePlain.json = [] ∧
    (addPageToProject (createProject "w10" "d" ["home"]) pagePlain).pages
      = (createProject "w10" "d" ["home"]).pages ++ [pagePlain] ∧
    (addPageToProject (createProject "w10" "d" ["home"]) pagePlain).interactiveElements
      = (createProject "w10" "d" ["home"]).interactiveElements :=
  claim10_theorem (createProject "w10" "d" ["home"]) pagePlain (Or.inl rfl)

end FigmaBackend
